import Mathlib

/-!
Shallow embedding of the `hashtable-educational` repository (Rust):
`src/hash/hashable.rs`, `src/hash/hashcell.rs`, `src/hash/hashtable.rs`.

Modelling conventions:
* Rust `usize` arithmetic is modelled as `Nat` with explicit reduction
  `% 2 ^ 64` at every point where the source can wrap.
* The table's cell vector is a `List (HashCell K V)`; `Vec` indexing
  `self.cells[index]` is `cellAt`, i.e. `List.getD _ default`.  Every probe
  index produced by the source is `< cells.length` whenever the length is
  positive, so the `getD` fallback is never reached on tables built by the
  API (the fallback cell is untaken, matching the behaviour of the probe
  loops on the impossible empty-cell-vector case).
* The unbounded `while` loop in `insert` is modelled by the fuel-bounded
  `probe_free` with fuel `cells.len()`: the loop advances cyclically, so if
  an untaken slot exists at all it is reached within `cells.len()` steps and
  the fuel bound is exact; otherwise the source diverges.
* The source's `insert` calls `extend`, which calls `insert` on the freshly
  allocated table.  This recursion is modelled by the fuel-indexed mutual
  pair `insertFuel` / `extendFuel`.  During a re-insertion pass the occupied
  count is always strictly below the new capacity `2*n + 1`, so the inner
  inserts never invoke `extend` again and fuel `1` reproduces the source
  exactly (proved below as fuel-insensitivity).
* `get` and `get_mut` both locate a slot with `get_index` and hand back the
  value stored there; they take `&self` / `&mut self` and never modify the
  cells or the count, so both are embedded as the same pure read.  The
  write through `get_mut`'s mutable reference performed by `insert` is
  embedded as an in-place update of the cell at the index `get_index`
  returns.
* `remove` mutates `self`; it is embedded as a function returning the pair
  (returned `Option<Value>`, table afterwards).
-/

/-- The `HashAble` trait of `hashable.rs`: a hash function into `usize`. -/
class HashAble (K : Type) where
  hash_key : K → Nat

/-- Modulus of Rust `usize` arithmetic (64-bit target). -/
def usizeMod : Nat := 2 ^ 64

/-- `impl HashAble for i32`: `*self as usize`, the two's-complement cast of a
signed integer to the unsigned 64-bit `usize`. -/
def hash_i32 (i : Int) : Nat := (i % (usizeMod : Int)).toNat

instance : HashAble Int := ⟨hash_i32⟩

/-- `impl HashAble for char`: one DJB2 step seeded at 5381 applied to the
code point: `((hash << 5) + hash) + (c as usize)`.  The result is far below
`2 ^ 64`, so no wrapping reduction is needed. -/
def hash_char (c : Char) : Nat := ((5381 <<< 5) + 5381) + c.toNat

instance : HashAble Char := ⟨hash_char⟩

/-- The `impl HashAble for &str` / `for String` body: DJB2 over the byte
sequence, `hash = ((hash << 5) + hash) + (c as usize)` in wrapping `usize`
arithmetic.  Since the accumulator stays `< 2 ^ 64`, performing one `% 2 ^ 64`
per step is exactly the composition of the individual wrapping operations. -/
def hashBytes (bs : List Nat) : Nat :=
  bs.foldl (fun hash c => (((hash <<< 5) + hash) + c) % usizeMod) 5381

instance : HashAble (List Nat) := ⟨hashBytes⟩

/-- `hashcell.rs`: one slot of the table.  `#[derive(Default)]` gives
`taken = false` with default key and value, modelled by the `Inhabited`
instance below. -/
structure HashCell (K V : Type) where
  key : K
  value : V
  taken : Bool
deriving DecidableEq, Repr

instance {K V : Type} [Inhabited K] [Inhabited V] : Inhabited (HashCell K V) :=
  ⟨{ key := default, value := default, taken := false }⟩

/-- `hashtable.rs`: the table, a vector of cells plus the occupied count. -/
structure HashTable (K V : Type) where
  cells : List (HashCell K V)
  taken_count : Nat
deriving DecidableEq, Repr

/-- Vec indexing `cells[i]`; out of bounds yields the (untaken) default cell,
a case the API never reaches on tables with a positive number of cells. -/
def cellAt {K V : Type} [Inhabited K] [Inhabited V]
    (cells : List (HashCell K V)) (i : Nat) : HashCell K V :=
  cells.getD i default

/-- Number of taken cells in a cell vector. -/
def takenCount {K V : Type} (cells : List (HashCell K V)) : Nat :=
  cells.countP (fun c => c.taken)

/-- Number of forward probe steps (with wrap-around) from slot `s` to slot
`i` in a table of `len` slots. -/
def probeDist (len s i : Nat) : Nat := (i + len - s) % len

namespace HashTable

variable {K V : Type} [DecidableEq K] [Inhabited K] [Inhabited V] [HashAble K]

/-- `const INIT_CAPACITY: usize = 11` in `HashTable::new`. -/
def INIT_CAPACITY : Nat := 11

/-- `HashTable::new()`: 11 default (empty) cells, occupied count 0. -/
def new : HashTable K V :=
  { cells := List.replicate INIT_CAPACITY default, taken_count := 0 }

/-- The `for _ in 0..self.cells.len()` probe loop of `get_index`, with the
remaining iteration count as fuel.  Each iteration stops at an untaken slot,
stops at a key match, and otherwise advances to `(index + 1) % len`. -/
def get_index_loop (cells : List (HashCell K V)) (key : K) :
    Nat → Nat → Nat
  | 0, index => index
  | fuel + 1, index =>
    if (cellAt cells index).taken = false then index
    else if (cellAt cells index).key = key then index
    else get_index_loop cells key fuel ((index + 1) % cells.length)

/-- `HashTable::get_index`: probe from `hash_key(key) % len` for at most
`len` steps, then report the final index if it holds the key. -/
def get_index (t : HashTable K V) (key : K) : Option Nat :=
  let index := get_index_loop t.cells key t.cells.length
    (HashAble.hash_key key % t.cells.length)
  if (cellAt t.cells index).taken = true ∧ (cellAt t.cells index).key = key then
    some index
  else
    none

/-- `HashTable::get`: the value at the slot `get_index` finds, if any. -/
def get (t : HashTable K V) (key : K) : Option V :=
  match t.get_index key with
  | some index => some (cellAt t.cells index).value
  | none => none

/-- `HashTable::get_mut`: locates the same slot as `get` and hands back a
mutable reference to the value there; as an observation of the table it is
the same pure read as `get`. -/
def get_mut (t : HashTable K V) (key : K) : Option V :=
  match t.get_index key with
  | some index => some (cellAt t.cells index).value
  | none => none

/-- The `while self.cells[index].taken == true` loop of `insert`, advancing
`index = (index + 1) % len`, with fuel.  Called with fuel `cells.len()`,
which reaches the first untaken slot whenever one exists; on a table with no
untaken slot the source diverges. -/
def probe_free (cells : List (HashCell K V)) : Nat → Nat → Nat
  | 0, index => index
  | fuel + 1, index =>
    if (cellAt cells index).taken = true then
      probe_free cells fuel ((index + 1) % cells.length)
    else index

/-- The re-insertion pass of `extend`, parametrized by the insert operation
used for the copies: allocate `2 * len + 1` default cells with count 0,
then re-insert every taken cell of the old table in slot order. -/
def extendWith (ins : HashTable K V → K → V → HashTable K V)
    (t : HashTable K V) : HashTable K V :=
  t.cells.foldl
    (fun acc cell =>
      if cell.taken = true then ins acc cell.key cell.value else acc)
    { cells := List.replicate (t.cells.length * 2 + 1) default,
      taken_count := 0 }

/-- `HashTable::insert`, with `fuel` bounding the depth of the
`insert → extend → insert` recursion (the nested copies of `extend` run
with one unit of fuel less; fuel 0 leaves the table unextended, a case
never reached at positive fuel because a re-insertion pass cannot fill the
doubled table).  Branch 1: the key already exists (found via `get_mut` /
`get_index`) and its value is overwritten in place.  Branch 2: otherwise
extend first if `taken_count >= cells.len()`, then probe from
`hash_key(key) % len` for the first untaken slot and write the entry. -/
def insertFuel : Nat → HashTable K V → K → V → HashTable K V
  | 0, t, key, value =>
    match t.get_index key with
    | some index =>
      { t with cells :=
          t.cells.set index { cellAt t.cells index with value := value } }
    | none =>
      let t1 : HashTable K V := t
      let index := probe_free t1.cells t1.cells.length
        (HashAble.hash_key key % t1.cells.length)
      { cells :=
          t1.cells.set index { key := key, value := value, taken := true },
        taken_count := t1.taken_count + 1 }
  | fuel' + 1, t, key, value =>
    match t.get_index key with
    | some index =>
      { t with cells :=
          t.cells.set index { cellAt t.cells index with value := value } }
    | none =>
      let t1 : HashTable K V :=
        if t.cells.length ≤ t.taken_count then
          extendWith (insertFuel fuel') t
        else t
      let index := probe_free t1.cells t1.cells.length
        (HashAble.hash_key key % t1.cells.length)
      { cells :=
          t1.cells.set index { key := key, value := value, taken := true },
        taken_count := t1.taken_count + 1 }

/-- `HashTable::extend` at a given fuel for its inner inserts. -/
def extendFuel (fuel : Nat) (t : HashTable K V) : HashTable K V :=
  match fuel with
  | 0 => t
  | fuel' + 1 => extendWith (insertFuel fuel') t

/-- `HashTable::insert`.  Fuel 1 reproduces the source exactly: the inner
re-insertions performed by `extend` never trigger a further `extend`
(proved below as `insertFuel_fuel_irrelevant`). -/
def insert (t : HashTable K V) (key : K) (value : V) : HashTable K V :=
  insertFuel 1 t key value

/-- `HashTable::extend` at the same fuel. -/
def extend (t : HashTable K V) : HashTable K V :=
  extendFuel 1 t

/-- `HashTable::len`: the slot capacity. -/
def len (t : HashTable K V) : Nat := t.cells.length

/-- `HashTable::len_of_used`: the occupied count. -/
def len_of_used (t : HashTable K V) : Nat := t.taken_count

/-- `HashTable::remove`: locate the slot via `get_index`; if found, capture
the value, reset the slot to the default cell, decrement the count.  The
first component is the returned `Option<Value>`, the second the table
afterwards. -/
def remove (t : HashTable K V) (key : K) : Option V × HashTable K V :=
  match t.get_index key with
  | some index =>
    (some (cellAt t.cells index).value,
      { cells := t.cells.set index default,
        taken_count := t.taken_count - 1 })
  | none => (none, t)

/-- A key is present when some in-range cell is taken and stores it. -/
def Present (t : HashTable K V) (key : K) : Prop :=
  ∃ i, i < t.cells.length ∧ (cellAt t.cells i).taken = true ∧
    (cellAt t.cells i).key = key

instance (t : HashTable K V) (key : K) : Decidable (t.Present key) := by
  unfold Present
  infer_instance

/-- The bookkeeping invariant: the stored `taken_count` equals the number of
taken cells (spec §3, "occupied count"). -/
def CountInv (t : HashTable K V) : Prop :=
  t.taken_count = takenCount t.cells

instance (t : HashTable K V) : Decidable (t.CountInv) := by
  unfold CountInv
  exact Nat.decEq _ _

/-- The full data-model invariant of spec §3: the count is correct, no key
occupies two slots, and every taken cell is reachable from its hash start
slot by a probe path of taken cells. -/
def Inv (t : HashTable K V) : Prop :=
  t.CountInv ∧
  (∀ i, i < t.cells.length → ∀ j, j < t.cells.length →
    (cellAt t.cells i).taken = true → (cellAt t.cells j).taken = true →
    (cellAt t.cells i).key = (cellAt t.cells j).key → i = j) ∧
  (∀ i, i < t.cells.length → (cellAt t.cells i).taken = true →
    ∀ u, u < probeDist t.cells.length
        (HashAble.hash_key (cellAt t.cells i).key % t.cells.length) i →
      (cellAt t.cells
        ((HashAble.hash_key (cellAt t.cells i).key % t.cells.length + u) %
          t.cells.length)).taken = true)

instance (t : HashTable K V) : Decidable (t.Inv) := by
  unfold Inv
  infer_instance

/-- Tables reachable from `new()` by the state-changing operations of the
public interface (`get` and `get_mut` return borrowed views and do not
change the table). -/
inductive Reachable : HashTable K V → Prop where
  | new : Reachable new
  | insert (t : HashTable K V) (key : K) (value : V) :
      Reachable t → Reachable (t.insert key value)
  | remove (t : HashTable K V) (key : K) :
      Reachable t → Reachable (t.remove key).2
  | extend (t : HashTable K V) :
      Reachable t → Reachable t.extend

end HashTable

/-- Folding a sequence of inserts over the fresh table, in order. -/
def runInserts {K V : Type} [DecidableEq K] [Inhabited K] [Inhabited V]
    [HashAble K] (ops : List (K × V)) : HashTable K V :=
  ops.foldl (fun t p => t.insert p.1 p.2) HashTable.new

/-- The last value an insert sequence associates with a key, if any. -/
def lastVal {K V : Type} [DecidableEq K] (ops : List (K × V)) (key : K) :
    Option V :=
  ops.foldl (fun acc p => if p.1 = key then some p.2 else acc) none

/-- Twelve inserts with distinct integer keys: one more than the initial
capacity, forcing a growth event. -/
def opsTwelve : List (Int × Int) :=
  [(0, 100), (1, 101), (2, 102), (3, 103), (4, 104), (5, 105), (6, 106),
    (7, 107), (8, 108), (9, 109), (10, 110), (11, 111)]

/-- Eleven inserts with distinct integer keys 0..10: fills every slot of the
fresh table, so an absent-key lookup probes the full capacity. -/
def opsEleven : List (Int × Int) :=
  [(0, 0), (1, 1), (2, 2), (3, 3), (4, 4), (5, 5), (6, 6), (7, 7), (8, 8),
    (9, 9), (10, 10)]

/-- A table reached from `new` by public operations on which the probe-chain
gap has produced a duplicated key: keys 0 and 11 collide at slot 0; after
removing 0, re-inserting key 11 fails to find the copy at slot 1 (the probe
stops at the now-empty slot 0) and writes a second copy at slot 0. -/
def dupKeyTable : HashTable Int Int :=
  (((((HashTable.new : HashTable Int Int).insert 0 1).insert 11 2).remove
    0).2).insert 11 3

/-! ### Arithmetic facts about cyclic probe positions -/

theorem probeDist_lt {len : Nat} (hlen : 0 < len) (s i : Nat) :
    probeDist len s i < len :=
  Nat.mod_lt _ hlen

/-- Walking `probeDist len s i` steps forward from `s` lands on `i`. -/
theorem add_probeDist {len s i : Nat} (hs : s < len) (hi : i < len) :
    (s + probeDist len s i) % len = i := by
  unfold probeDist
  rcases Nat.lt_or_ge i s with h | h
  · have h1 : (i + len - s) % len = i + len - s := Nat.mod_eq_of_lt (by omega)
    rw [h1]
    have h2 : s + (i + len - s) = i + len := by omega
    rw [h2, Nat.add_mod_right, Nat.mod_eq_of_lt hi]
  · have h1 : (i + len - s) % len = i - s := by
      have h2 : i + len - s = (i - s) + len := by omega
      rw [h2, Nat.add_mod_right, Nat.mod_eq_of_lt (by omega)]
    rw [h1]
    have h2 : s + (i - s) = i := by omega
    rw [h2, Nat.mod_eq_of_lt hi]

/-- The probe distance of the slot reached after `d < len` forward steps is
`d` itself. -/
theorem probeDist_add {len s d : Nat} (hs : s < len) (hd : d < len) :
    probeDist len s ((s + d) % len) = d := by
  unfold probeDist
  rcases Nat.lt_or_ge (s + d) len with h | h
  · rw [Nat.mod_eq_of_lt h]
    have h2 : s + d + len - s = d + len := by omega
    rw [h2, Nat.add_mod_right, Nat.mod_eq_of_lt hd]
  · have h1 : (s + d) % len = s + d - len := by
      rw [Nat.mod_eq_sub_mod h, Nat.mod_eq_of_lt (by omega)]
    rw [h1]
    have h2 : s + d - len + len - s = d := by omega
    rw [h2, Nat.mod_eq_of_lt hd]

/-- Two forward step counts `< len` reaching the same slot are equal. -/
theorem mod_shift_inj {len c a b : Nat} (ha : a < len) (hb : b < len)
    (h : (c + a) % len = (c + b) % len) : a = b := by
  have h2 : a ≡ b [MOD len] := Nat.ModEq.add_left_cancel' c h
  have h3 : a % len = b % len := h2
  rw [Nat.mod_eq_of_lt ha, Nat.mod_eq_of_lt hb] at h3
  exact h3

/-- Advancing the probe index once and then `w` more steps is the same as
advancing `1 + w` steps. -/
theorem probe_step {len p w : Nat} :
    ((p + 1) % len + w) % len = (p + (1 + w)) % len := by
  rw [Nat.mod_add_mod, Nat.add_assoc]

section CellLemmas

variable {K V : Type} [Inhabited K] [Inhabited V]

theorem default_cell_taken : (default : HashCell K V).taken = false := rfl

/-- A taken cell is within bounds: the out-of-bounds fallback is untaken. -/
theorem cellAt_lt_of_taken {cells : List (HashCell K V)} {i : Nat}
    (h : (cellAt cells i).taken = true) : i < cells.length := by
  by_contra hge
  rw [cellAt, List.getD_eq_default _ _ (by omega)] at h
  simp [default_cell_taken] at h

theorem cellAt_eq_getElem {cells : List (HashCell K V)} {i : Nat}
    (h : i < cells.length) : cellAt cells i = cells[i] := by
  rw [cellAt, List.getD_eq_getElem _ _ h]

theorem cellAt_set_self {cells : List (HashCell K V)} {i : Nat}
    (h : i < cells.length) (c : HashCell K V) :
    cellAt (cells.set i c) i = c := by
  rw [cellAt, List.getD_eq_getElem?_getD, List.getElem?_set]
  simp [h]

theorem cellAt_set_ne {cells : List (HashCell K V)} {i j : Nat} (h : i ≠ j)
    (c : HashCell K V) : cellAt (cells.set i c) j = cellAt cells j := by
  rw [cellAt, List.getD_eq_getElem?_getD, List.getElem?_set, if_neg h,
    cellAt, List.getD_eq_getElem?_getD]

theorem cellAt_replicate (n i : Nat) :
    cellAt (List.replicate n (default : HashCell K V)) i = default := by
  rcases Nat.lt_or_ge i n with h | h
  · rw [cellAt, List.getD_eq_getElem _ _ (by simpa using h)]
    simp
  · exact List.getD_eq_default _ _ (by simpa using h)

theorem cellAt_mem {cells : List (HashCell K V)} {i : Nat}
    (h : i < cells.length) : cellAt cells i ∈ cells := by
  rw [cellAt_eq_getElem h]
  exact List.get_mem cells i h

theorem takenCount_le (cells : List (HashCell K V)) :
    takenCount cells ≤ cells.length :=
  List.countP_le_length _

theorem takenCount_replicate (n : Nat) :
    takenCount (List.replicate n (default : HashCell K V)) = 0 := by
  rw [takenCount, List.countP_eq_zero]
  intro c hc
  rw [List.eq_of_mem_replicate hc]
  simp [default_cell_taken]

theorem takenCount_set (cells : List (HashCell K V)) (i : Nat)
    (c : HashCell K V) (h : i < cells.length) :
    takenCount (cells.set i c) + (if (cellAt cells i).taken then 1 else 0) =
      takenCount cells + (if c.taken then 1 else 0) := by
  induction cells generalizing i with
  | nil => simp at h
  | cons hd tl ih =>
    cases i with
    | zero =>
      simp only [List.set_cons_zero, takenCount, List.countP_cons, cellAt,
        List.getD_cons_zero]
      omega
    | succ n =>
      have hn : n < tl.length := by simpa using h
      have hrec := ih n hn
      simp only [List.set_cons_succ, takenCount, List.countP_cons, cellAt,
        List.getD_cons_succ] at hrec ⊢
      omega

theorem exists_untaken {cells : List (HashCell K V)}
    (h : takenCount cells < cells.length) :
    ∃ i, i < cells.length ∧ (cellAt cells i).taken = false := by
  by_contra hno
  push_neg at hno
  have hall : ∀ c ∈ cells, (fun c : HashCell K V => c.taken) c = true := by
    intro c hc
    rcases List.mem_iff_getElem.mp hc with ⟨n, hn, rfl⟩
    have h1 := hno n hn
    rw [cellAt_eq_getElem hn] at h1
    exact Bool.not_eq_false _ ▸ (by simpa using h1)
  have h2 : takenCount cells = cells.length := List.countP_eq_length.mpr hall
  omega

theorem takenCount_pos {cells : List (HashCell K V)} {i : Nat}
    (hi : i < cells.length) (ht : (cellAt cells i).taken = true) :
    1 ≤ takenCount cells :=
  List.countP_pos_iff.mpr ⟨cellAt cells i, cellAt_mem hi, ht⟩

theorem all_taken_of_full {cells : List (HashCell K V)}
    (h : cells.length ≤ takenCount cells) :
    ∀ i, i < cells.length → (cellAt cells i).taken = true := by
  have heq : takenCount cells = cells.length :=
    Nat.le_antisymm (takenCount_le _) h
  have hall := List.countP_eq_length.mp heq
  intro i hi
  exact hall _ (cellAt_mem hi)

end CellLemmas

/-! ### Behaviour of the probe loops -/

section LoopLemmas

variable {K V : Type} [DecidableEq K] [Inhabited K] [Inhabited V] [HashAble K]

/-- The `get_index` loop stops exactly at the first slot along the probe
sequence that is untaken or holds the key, provided the fuel reaches it. -/
theorem get_index_loop_stops {cells : List (HashCell K V)} {key : K} :
    ∀ (u fuel start : Nat), start < cells.length → u < fuel →
    (∀ u', u' < u →
      (cellAt cells ((start + u') % cells.length)).taken = true ∧
      ¬(cellAt cells ((start + u') % cells.length)).key = key) →
    ((cellAt cells ((start + u) % cells.length)).taken = false ∨
      (cellAt cells ((start + u) % cells.length)).key = key) →
    HashTable.get_index_loop cells key fuel start =
      (start + u) % cells.length := by
  intro u
  induction u with
  | zero =>
    intro fuel start hs hf _ hstop
    obtain ⟨fuel', rfl⟩ : ∃ f, fuel = f + 1 := ⟨fuel - 1, by omega⟩
    have h0 : (start + 0) % cells.length = start := by
      rw [Nat.add_zero, Nat.mod_eq_of_lt hs]
    rw [h0] at hstop ⊢
    rcases hstop with h | h
    · simp [HashTable.get_index_loop, h]
    · by_cases ht : (cellAt cells start).taken = false
      · simp [HashTable.get_index_loop, ht]
      · simp [HashTable.get_index_loop, ht, h]
  | succ u ih =>
    intro fuel start hs hf hpath hstop
    obtain ⟨fuel', rfl⟩ : ∃ f, fuel = f + 1 := ⟨fuel - 1, by omega⟩
    have h0 := hpath 0 (Nat.succ_pos u)
    have h0' : (start + 0) % cells.length = start := by
      rw [Nat.add_zero, Nat.mod_eq_of_lt hs]
    rw [h0'] at h0
    have hlen : 0 < cells.length := by omega
    have step : HashTable.get_index_loop cells key (fuel' + 1) start =
        HashTable.get_index_loop cells key fuel'
          ((start + 1) % cells.length) := by
      have ht : ¬(cellAt cells start).taken = false := by simp [h0.1]
      simp [HashTable.get_index_loop, ht, h0.2]
    rw [step]
    have hs' : (start + 1) % cells.length < cells.length := Nat.mod_lt _ hlen
    have hres := ih fuel' ((start + 1) % cells.length) hs' (by omega)
      (fun u' hu' => by
        rw [probe_step]
        exact hpath (1 + u') (by omega))
      (by
        rw [probe_step]
        have hsu : start + (1 + u) = start + (u + 1) := by omega
        rw [hsu]
        exact hstop)
    rw [hres, probe_step]
    have hsu : start + (1 + u) = start + (u + 1) := by omega
    rw [hsu]

/-- If no stopping condition occurs within the fuel, the `get_index` loop
runs its fuel out, advancing one slot per iteration. -/
theorem get_index_loop_exhaust {cells : List (HashCell K V)} {key : K} :
    ∀ (fuel start : Nat), start < cells.length →
    (∀ u, u < fuel →
      (cellAt cells ((start + u) % cells.length)).taken = true ∧
      ¬(cellAt cells ((start + u) % cells.length)).key = key) →
    HashTable.get_index_loop cells key fuel start =
      (start + fuel) % cells.length := by
  intro fuel
  induction fuel with
  | zero =>
    intro start hs _
    rw [Nat.add_zero, Nat.mod_eq_of_lt hs]
    rfl
  | succ fuel ih =>
    intro start hs hpath
    have h0 := hpath 0 (Nat.succ_pos fuel)
    have h0' : (start + 0) % cells.length = start := by
      rw [Nat.add_zero, Nat.mod_eq_of_lt hs]
    rw [h0'] at h0
    have hlen : 0 < cells.length := by omega
    have step : HashTable.get_index_loop cells key (fuel + 1) start =
        HashTable.get_index_loop cells key fuel
          ((start + 1) % cells.length) := by
      have ht : ¬(cellAt cells start).taken = false := by simp [h0.1]
      simp [HashTable.get_index_loop, ht, h0.2]
    rw [step]
    have hs' : (start + 1) % cells.length < cells.length := Nat.mod_lt _ hlen
    have hres := ih ((start + 1) % cells.length) hs'
      (fun u hu => by
        rw [probe_step]
        exact hpath (1 + u) (by omega))
    rw [hres, probe_step]
    have hsu : start + (1 + fuel) = start + (fuel + 1) := by omega
    rw [hsu]

/-- The free-slot probe of `insert` stops exactly at the first untaken slot
along the probe sequence, provided the fuel reaches it. -/
theorem probe_free_stops {cells : List (HashCell K V)} :
    ∀ (u fuel start : Nat), start < cells.length → u < fuel →
    (∀ u', u' < u →
      (cellAt cells ((start + u') % cells.length)).taken = true) →
    (cellAt cells ((start + u) % cells.length)).taken = false →
    HashTable.probe_free cells fuel start = (start + u) % cells.length := by
  intro u
  induction u with
  | zero =>
    intro fuel start hs hf _ hstop
    obtain ⟨fuel', rfl⟩ : ∃ f, fuel = f + 1 := ⟨fuel - 1, by omega⟩
    have h0 : (start + 0) % cells.length = start := by
      rw [Nat.add_zero, Nat.mod_eq_of_lt hs]
    rw [h0] at hstop ⊢
    simp [HashTable.probe_free, hstop]
  | succ u ih =>
    intro fuel start hs hf hpath hstop
    obtain ⟨fuel', rfl⟩ : ∃ f, fuel = f + 1 := ⟨fuel - 1, by omega⟩
    have h0 := hpath 0 (Nat.succ_pos u)
    have h0' : (start + 0) % cells.length = start := by
      rw [Nat.add_zero, Nat.mod_eq_of_lt hs]
    rw [h0'] at h0
    have hlen : 0 < cells.length := by omega
    have step : HashTable.probe_free cells (fuel' + 1) start =
        HashTable.probe_free cells fuel' ((start + 1) % cells.length) := by
      simp [HashTable.probe_free, h0]
    rw [step]
    have hs' : (start + 1) % cells.length < cells.length := Nat.mod_lt _ hlen
    have hres := ih fuel' ((start + 1) % cells.length) hs' (by omega)
      (fun u' hu' => by
        rw [probe_step]
        exact hpath (1 + u') (by omega))
      (by
        rw [probe_step]
        have hsu : start + (1 + u) = start + (u + 1) := by omega
        rw [hsu]
        exact hstop)
    rw [hres, probe_step]
    have hsu : start + (1 + u) = start + (u + 1) := by omega
    rw [hsu]

end LoopLemmas

/-! ### Characterisation of get_index -/

section GetIndexLemmas

open HashTable

variable {K V : Type} [DecidableEq K] [Inhabited K] [Inhabited V] [HashAble K]

/-- Inversion: a successful lookup returns an in-bounds taken slot holding
the key, reached from the hash start slot by a probe path consisting
entirely of taken slots holding other keys. -/
theorem get_index_some_spec {t : HashTable K V} {key : K} {i : Nat}
    (h : t.get_index key = some i) :
    i < t.cells.length ∧ (cellAt t.cells i).taken = true ∧
    (cellAt t.cells i).key = key ∧
    (HashAble.hash_key key % t.cells.length < t.cells.length) ∧
    (∀ u, u < probeDist t.cells.length
        (HashAble.hash_key key % t.cells.length) i →
      (cellAt t.cells ((HashAble.hash_key key % t.cells.length + u) %
          t.cells.length)).taken = true ∧
      ¬(cellAt t.cells ((HashAble.hash_key key % t.cells.length + u) %
          t.cells.length)).key = key) := by
  by_cases hlen : t.cells.length = 0
  · exfalso
    unfold HashTable.get_index at h
    have hr : ∀ r, cellAt t.cells r = default := by
      intro r
      exact List.getD_eq_default _ _ (by omega)
    simp only [hr] at h
    simp [default_cell_taken] at h
  have hpos : 0 < t.cells.length := Nat.pos_of_ne_zero hlen
  set s := HashAble.hash_key key % t.cells.length with hs_def
  have hs : s < t.cells.length := Nat.mod_lt _ hpos
  by_cases hex : ∃ u, u < t.cells.length ∧
      ((cellAt t.cells ((s + u) % t.cells.length)).taken = false ∨
        (cellAt t.cells ((s + u) % t.cells.length)).key = key)
  · have hfind := Nat.find_spec hex
    set u1 := Nat.find hex with hu1_def
    have hu1len : u1 < t.cells.length := hfind.1
    have hmin : ∀ u', u' < u1 →
        (cellAt t.cells ((s + u') % t.cells.length)).taken = true ∧
        ¬(cellAt t.cells ((s + u') % t.cells.length)).key = key := by
      intro u' hu'
      have hnot := Nat.find_min hex hu'
      push_neg at hnot
      have hulen : u' < t.cells.length := by omega
      have hnot2 := hnot hulen
      push_neg at hnot2
      constructor
      · cases hb : (cellAt t.cells ((s + u') % t.cells.length)).taken
        · exact absurd hb hnot2.1
        · rfl
      · exact hnot2.2
    have hloop := get_index_loop_stops u1 t.cells.length s hs hfind.1 hmin
      hfind.2
    unfold HashTable.get_index at h
    rw [hloop] at h
    by_cases hcond : (cellAt t.cells ((s + u1) % t.cells.length)).taken = true ∧
        (cellAt t.cells ((s + u1) % t.cells.length)).key = key
    · rw [if_pos hcond] at h
      have hi : i = (s + u1) % t.cells.length := (Option.some.inj h).symm
      subst hi
      refine ⟨Nat.mod_lt _ hpos, hcond.1, hcond.2, hs, ?_⟩
      intro u hu
      rw [probeDist_add hs hfind.1] at hu
      exact hmin u hu
    · rw [if_neg hcond] at h
      exact Option.noConfusion h
  · push_neg at hex
    have hall : ∀ u, u < t.cells.length →
        (cellAt t.cells ((s + u) % t.cells.length)).taken = true ∧
        ¬(cellAt t.cells ((s + u) % t.cells.length)).key = key := by
      intro u hu
      have h1 := hex u hu
      push_neg at h1
      constructor
      · cases hb : (cellAt t.cells ((s + u) % t.cells.length)).taken
        · exact absurd hb h1.1
        · rfl
      · exact h1.2
    have hloop := get_index_loop_exhaust t.cells.length s hs hall
    unfold get_index at h
    rw [hloop] at h
    have hwrap : (s + t.cells.length) % t.cells.length = s := by
      rw [Nat.add_mod_right, Nat.mod_eq_of_lt hs]
    rw [hwrap] at h
    by_cases hcond : (cellAt t.cells s).taken = true ∧
        (cellAt t.cells s).key = key
    · exfalso
      have h1 := hall 0 hpos
      rw [Nat.add_zero, Nat.mod_eq_of_lt hs] at h1
      exact h1.2 hcond.2
    · rw [if_neg hcond] at h
      exact Option.noConfusion h

/-- If no in-bounds taken slot holds the key, the lookup reports absence
(this needs no invariant: the final check of `get_index` fails wherever the
loop stops). -/
theorem get_index_none_of_absent {t : HashTable K V} {key : K}
    (h : ¬ t.Present key) : t.get_index key = none := by
  unfold get_index
  set r := get_index_loop t.cells key t.cells.length
    (HashAble.hash_key key % t.cells.length)
  by_cases hcond : (cellAt t.cells r).taken = true ∧
      (cellAt t.cells r).key = key
  · exfalso
    exact h ⟨r, cellAt_lt_of_taken hcond.1, hcond⟩
  · rw [if_neg hcond]

theorem present_of_get_index_some {t : HashTable K V} {key : K} {i : Nat}
    (h : t.get_index key = some i) : t.Present key := by
  obtain ⟨hi, ht, hk, _⟩ := get_index_some_spec h
  exact ⟨i, hi, ht, hk⟩

/-- Finding direction: a slot holding the key whose probe path consists of
taken slots with other keys is found by `get_index`. -/
theorem get_index_finds {t : HashTable K V} {key : K} {i : Nat}
    (hi : i < t.cells.length)
    (ht : (cellAt t.cells i).taken = true)
    (hk : (cellAt t.cells i).key = key)
    (hpath : ∀ u, u < probeDist t.cells.length
        (HashAble.hash_key key % t.cells.length) i →
      (cellAt t.cells ((HashAble.hash_key key % t.cells.length + u) %
          t.cells.length)).taken = true ∧
      ¬(cellAt t.cells ((HashAble.hash_key key % t.cells.length + u) %
          t.cells.length)).key = key) :
    t.get_index key = some i := by
  have hpos : 0 < t.cells.length := by omega
  set s := HashAble.hash_key key % t.cells.length with hs_def
  have hs : s < t.cells.length := Nat.mod_lt _ hpos
  set d := probeDist t.cells.length s i with hd_def
  have hd : d < t.cells.length := probeDist_lt hpos s i
  have hreach : (s + d) % t.cells.length = i := add_probeDist hs hi
  have hloop := get_index_loop_stops d t.cells.length s hs hd hpath
    (by rw [hreach]; right; exact hk)
  unfold get_index
  rw [hloop, hreach, if_pos ⟨ht, hk⟩]

/-- The lookup depends only on the taken flags and keys of the cells, not on
the stored values. -/
theorem get_index_congr {t t' : HashTable K V} {key : K}
    (hlen : t'.cells.length = t.cells.length)
    (hsame : ∀ j, (cellAt t'.cells j).taken = (cellAt t.cells j).taken ∧
      (cellAt t'.cells j).key = (cellAt t.cells j).key) :
    t'.get_index key = t.get_index key := by
  have hloop : ∀ fuel start,
      get_index_loop t'.cells key fuel start =
        get_index_loop t.cells key fuel start := by
    intro fuel
    induction fuel with
    | zero => intro start; rfl
    | succ fuel ih =>
      intro start
      show (if (cellAt t'.cells start).taken = false then start
        else if (cellAt t'.cells start).key = key then start
        else get_index_loop t'.cells key fuel
          ((start + 1) % t'.cells.length)) =
        (if (cellAt t.cells start).taken = false then start
        else if (cellAt t.cells start).key = key then start
        else get_index_loop t.cells key fuel
          ((start + 1) % t.cells.length))
      rw [(hsame start).1, (hsame start).2, hlen, ih]
  have htk : ∀ j, (cellAt t'.cells j).taken = (cellAt t.cells j).taken :=
    fun j => (hsame j).1
  have hkk : ∀ j, (cellAt t'.cells j).key = (cellAt t.cells j).key :=
    fun j => (hsame j).2
  unfold HashTable.get_index
  simp only [hloop, hlen, htk, hkk]

/-- Along a prefix of the probe path that is entirely taken, a failed lookup
guarantees none of the slots holds the key. -/
theorem get_index_none_path {t : HashTable K V} {key : K} {d : Nat}
    (h : t.get_index key = none) (hpos : 0 < t.cells.length)
    (hd : d ≤ t.cells.length)
    (htaken : ∀ u, u < d →
      (cellAt t.cells ((HashAble.hash_key key % t.cells.length + u) %
        t.cells.length)).taken = true) :
    ∀ u, u < d →
      ¬(cellAt t.cells ((HashAble.hash_key key % t.cells.length + u) %
        t.cells.length)).key = key := by
  set s := HashAble.hash_key key % t.cells.length with hs_def
  have hs : s < t.cells.length := Nat.mod_lt _ hpos
  by_contra hcon
  push_neg at hcon
  obtain ⟨u₀, hu₀d, hu₀k⟩ := hcon
  have hex : ∃ u, (cellAt t.cells ((s + u) % t.cells.length)).taken = false ∨
      (cellAt t.cells ((s + u) % t.cells.length)).key = key :=
    ⟨u₀, Or.inr hu₀k⟩
  have hfind := Nat.find_spec hex
  set u1 := Nat.find hex with hu1_def
  have hu1 : u1 ≤ u₀ := Nat.find_min' hex (Or.inr hu₀k)
  have hmin : ∀ u', u' < u1 →
      (cellAt t.cells ((s + u') % t.cells.length)).taken = true ∧
      ¬(cellAt t.cells ((s + u') % t.cells.length)).key = key := by
    intro u' hu'
    have hnot := Nat.find_min hex hu'
    push_neg at hnot
    constructor
    · cases hb : (cellAt t.cells ((s + u') % t.cells.length)).taken
      · exact absurd hb hnot.1
      · rfl
    · exact hnot.2
  have hstop : (cellAt t.cells ((s + u1) % t.cells.length)).taken = true ∧
      (cellAt t.cells ((s + u1) % t.cells.length)).key = key := by
    rcases hfind with hf | hf
    · exact absurd (htaken u1 (by omega)) (by simp [hf])
    · exact ⟨htaken u1 (by omega), hf⟩
  have hloop := get_index_loop_stops u1 t.cells.length s hs (by omega) hmin
    (Or.inr hstop.2)
  unfold get_index at h
  rw [hloop, if_pos hstop] at h
  exact Option.noConfusion h

end GetIndexLemmas

/-! ### The free-slot probe and the two branches of insert -/

section InsertStructure

open HashTable

variable {K V : Type} [DecidableEq K] [Inhabited K] [Inhabited V] [HashAble K]

/-- When some slot is untaken, the free-slot probe with fuel `len` stops at
the first untaken slot of the probe sequence: the result is in bounds,
untaken, and everything strictly before it on the path is taken. -/
theorem probe_free_finds {cells : List (HashCell K V)} {start : Nat}
    (hs : start < cells.length)
    (hfree : ∃ i, i < cells.length ∧ (cellAt cells i).taken = false) :
    (cellAt cells (probe_free cells cells.length start)).taken = false ∧
    probe_free cells cells.length start < cells.length ∧
    ∀ u, u < probeDist cells.length start
        (probe_free cells cells.length start) →
      (cellAt cells ((start + u) % cells.length)).taken = true := by
  have hpos : 0 < cells.length := by omega
  obtain ⟨j, hj, hjf⟩ := hfree
  have hex : ∃ u,
      (cellAt cells ((start + u) % cells.length)).taken = false := by
    refine ⟨probeDist cells.length start j, ?_⟩
    rw [add_probeDist hs hj]
    exact hjf
  have hfind := Nat.find_spec hex
  set u1 := Nat.find hex with hu1_def
  have hu1len : u1 < cells.length := by
    have hle : u1 ≤ probeDist cells.length start j := by
      apply Nat.find_min' hex
      rw [add_probeDist hs hj]
      exact hjf
    have := probeDist_lt hpos start j
    omega
  have hmin : ∀ u', u' < u1 →
      (cellAt cells ((start + u') % cells.length)).taken = true := by
    intro u' hu'
    have hnot := Nat.find_min hex hu'
    cases hb : (cellAt cells ((start + u') % cells.length)).taken
    · exact absurd hb hnot
    · rfl
  have hloop := probe_free_stops u1 cells.length start hs hu1len hmin hfind
  rw [hloop]
  refine ⟨hfind, Nat.mod_lt _ hpos, ?_⟩
  intro u hu
  rw [probeDist_add hs hu1len] at hu
  exact hmin u hu

/-- Branch 1 of `insert`: the key exists, so only its value is overwritten;
the occupied count and the extent of the cell vector are untouched, and no
growth happens regardless of fullness. -/
theorem insertFuel_found {t : HashTable K V} {key : K} {i : Nat}
    (fuel : Nat) (h : t.get_index key = some i) (value : V) :
    insertFuel fuel t key value =
      { t with cells :=
          t.cells.set i { cellAt t.cells i with value := value } } := by
  cases fuel with
  | zero =>
    unfold insertFuel
    rw [h]
  | succ fuel' =>
    unfold insertFuel
    rw [h]

/-- Branch 2 of `insert` on a non-full table: no growth, and the new entry
is written at the slot the free probe finds. -/
theorem insertFuel_notfound_notfull {t : HashTable K V} {key : K}
    (fuel : Nat) (h : t.get_index key = none)
    (hnf : t.taken_count < t.cells.length) (value : V) :
    insertFuel fuel t key value =
      { cells := t.cells.set
          (probe_free t.cells t.cells.length
            (HashAble.hash_key key % t.cells.length))
          { key := key, value := value, taken := true },
        taken_count := t.taken_count + 1 } := by
  cases fuel with
  | zero =>
    unfold insertFuel
    rw [h]
  | succ fuel' =>
    unfold insertFuel
    rw [h]
    have hc : ¬(t.cells.length ≤ t.taken_count) := by omega
    simp only [if_neg hc]

/-- Branch 2 of `insert` on a full table: grow first, then write at the slot
the free probe finds in the grown table. -/
theorem insertFuel_notfound_full {t : HashTable K V} {key : K}
    (fuel : Nat) (h : t.get_index key = none)
    (hf : t.cells.length ≤ t.taken_count) (value : V) :
    insertFuel fuel t key value =
      { cells := (extendFuel fuel t).cells.set
          (probe_free (extendFuel fuel t).cells
            (extendFuel fuel t).cells.length
            (HashAble.hash_key key % (extendFuel fuel t).cells.length))
          { key := key, value := value, taken := true },
        taken_count := (extendFuel fuel t).taken_count + 1 } := by
  cases fuel with
  | zero =>
    unfold insertFuel
    rw [h]
    simp only [if_pos hf]
    rfl
  | succ fuel' =>
    unfold insertFuel
    rw [h]
    simp only [if_pos hf]
    rfl

/-- Unfolding of `extend` at positive fuel. -/
theorem extendFuel_succ (fuel : Nat) (t : HashTable K V) :
    extendFuel (fuel + 1) t =
      t.cells.foldl
        (fun acc cell =>
          if cell.taken = true then insertFuel fuel acc cell.key cell.value
          else acc)
        { cells := List.replicate (t.cells.length * 2 + 1) default,
          taken_count := 0 } := by
  unfold extendFuel
  rfl

theorem takenCount_cons (c : HashCell K V) (cs : List (HashCell K V)) :
    takenCount (c :: cs) = takenCount cs + (if c.taken = true then 1 else 0) := by
  rw [takenCount, takenCount, List.countP_cons]

/-- Inserting into a non-full table: the count invariant is preserved, the
cell vector keeps its extent, the count grows by at most one, the result
does not depend on the fuel (no growth can occur), and any key present
afterwards is the inserted key or was present before. -/
theorem insert_notfull_spec {t : HashTable K V} {key : K} {value : V}
    (hcnt : t.CountInv) (hnf : t.taken_count < t.cells.length) (fuel : Nat) :
    (insertFuel fuel t key value).CountInv ∧
    (insertFuel fuel t key value).cells.length = t.cells.length ∧
    (insertFuel fuel t key value).taken_count ≤ t.taken_count + 1 ∧
    insertFuel fuel t key value = insertFuel 0 t key value ∧
    (∀ k', (insertFuel fuel t key value).Present k' →
      k' = key ∨ t.Present k') := by
  match hidx : t.get_index key with
  | some i =>
    obtain ⟨hi, hti, hki, -⟩ := get_index_some_spec hidx
    rw [insertFuel_found fuel hidx, insertFuel_found 0 hidx]
    set c' : HashCell K V := { cellAt t.cells i with value := value }
      with hcdef
    have hsame : c'.taken = (cellAt t.cells i).taken := rfl
    have hcount : takenCount (t.cells.set i c') = takenCount t.cells := by
      have hset := takenCount_set t.cells i c' hi
      rw [hsame] at hset
      omega
    refine ⟨?_, by simp, by simp, rfl, ?_⟩
    · show t.taken_count = takenCount (t.cells.set i c')
      rw [hcount]
      exact hcnt
    · rintro k' ⟨j, hj, htj, hkj⟩
      simp only [List.length_set] at hj
      right
      by_cases hji : j = i
      · subst hji
        rw [cellAt_set_self hj c'] at htj hkj
        exact ⟨j, hj, htj, hkj⟩
      · rw [cellAt_set_ne (fun hh => hji hh.symm) c'] at htj hkj
        exact ⟨j, hj, htj, hkj⟩
  | none =>
    have hpos : 0 < t.cells.length := by omega
    have hs : HashAble.hash_key key % t.cells.length < t.cells.length :=
      Nat.mod_lt _ hpos
    have hfree : ∃ i, i < t.cells.length ∧
        (cellAt t.cells i).taken = false := by
      apply exists_untaken
      rw [HashTable.CountInv] at hcnt
      omega
    obtain ⟨hrfree, hrlt, -⟩ := probe_free_finds hs hfree
    set r := probe_free t.cells t.cells.length
      (HashAble.hash_key key % t.cells.length) with hr_def
    rw [insertFuel_notfound_notfull fuel hidx hnf,
      insertFuel_notfound_notfull 0 hidx hnf]
    set cnew : HashCell K V := { key := key, value := value, taken := true }
      with hcnew_def
    have hcount : takenCount (t.cells.set r cnew) = takenCount t.cells + 1 := by
      have hset := takenCount_set t.cells r cnew hrlt
      rw [hrfree] at hset
      simp only [Bool.false_eq_true, if_false, if_true] at hset
      omega
    refine ⟨?_, by simp, by simp, rfl, ?_⟩
    · show t.taken_count + 1 = takenCount (t.cells.set r cnew)
      rw [hcount, hcnt]
    · rintro k' ⟨j, hj, htj, hkj⟩
      simp only [List.length_set] at hj
      by_cases hjr : j = r
      · subst hjr
        rw [cellAt_set_self hj cnew] at hkj
        left
        exact hkj.symm
      · rw [cellAt_set_ne (fun hh => hjr hh.symm) cnew] at htj hkj
        right
        exact ⟨j, hj, htj, hkj⟩

/-- Behaviour of the re-insertion pass of `extend`: as long as the
accumulated count plus the number of remaining taken cells fits within the
capacity, the fold preserves the capacity and the count invariant, grows the
count by at most the number of taken cells re-inserted, is independent of
the fuel of the inner inserts (no nested growth can trigger), and only
contains keys it started with or re-inserted. -/
theorem reinsert_fold_spec (fuel₁ fuel₂ : Nat) :
    ∀ (cs : List (HashCell K V)) (acc : HashTable K V),
    acc.CountInv →
    acc.taken_count + takenCount cs ≤ acc.cells.length →
    (cs.foldl
        (fun acc cell =>
          if cell.taken = true then insertFuel fuel₁ acc cell.key cell.value
          else acc) acc).cells.length = acc.cells.length ∧
    (cs.foldl
        (fun acc cell =>
          if cell.taken = true then insertFuel fuel₁ acc cell.key cell.value
          else acc) acc).taken_count ≤ acc.taken_count + takenCount cs ∧
    (cs.foldl
        (fun acc cell =>
          if cell.taken = true then insertFuel fuel₁ acc cell.key cell.value
          else acc) acc).CountInv ∧
    cs.foldl
        (fun acc cell =>
          if cell.taken = true then insertFuel fuel₁ acc cell.key cell.value
          else acc) acc =
      cs.foldl
        (fun acc cell =>
          if cell.taken = true then insertFuel fuel₂ acc cell.key cell.value
          else acc) acc ∧
    (∀ k, (cs.foldl
        (fun acc cell =>
          if cell.taken = true then insertFuel fuel₁ acc cell.key cell.value
          else acc) acc).Present k →
      acc.Present k ∨ ∃ c ∈ cs, c.taken = true ∧ c.key = k) := by
  intro cs
  induction cs with
  | nil =>
    intro acc hcnt hle
    exact ⟨rfl, by simp, hcnt, rfl, fun k hk => Or.inl hk⟩
  | cons c cs ih =>
    intro acc hcnt hle
    rw [takenCount_cons] at hle
    by_cases hc : c.taken = true
    · simp only [List.foldl_cons, if_pos hc]
      rw [if_pos hc] at hle
      have hnf : acc.taken_count < acc.cells.length := by omega
      obtain ⟨hcnt', hlen', hcount', hfuel', hpres'⟩ :=
        @insert_notfull_spec K V _ _ _ _ acc c.key c.value hcnt hnf fuel₁
      obtain ⟨hcnt₂', hlen₂', hcount₂', hfuel₂', hpres₂'⟩ :=
        @insert_notfull_spec K V _ _ _ _ acc c.key c.value hcnt hnf fuel₂
      have hle' : (insertFuel fuel₁ acc c.key c.value).taken_count +
          takenCount cs ≤ (insertFuel fuel₁ acc c.key c.value).cells.length := by
        rw [hlen']
        omega
      obtain ⟨ihlen, ihcount, ihcnt, ihfuel, ihpres⟩ := ih _ hcnt' hle'
      refine ⟨by rw [ihlen, hlen'],
        by rw [takenCount_cons, if_pos hc]; omega, ihcnt, ?_, ?_⟩
      · rw [ihfuel]
        have heq : insertFuel fuel₁ acc c.key c.value =
            insertFuel fuel₂ acc c.key c.value := by
          rw [hfuel', hfuel₂']
        rw [heq]
      · intro k hk
        rcases ihpres k hk with hpk | ⟨c', hc', htc', hkc'⟩
        · rcases hpres' k hpk with hkey | hacc
          · exact Or.inr ⟨c, List.mem_cons_self c cs, hc, hkey.symm⟩
          · exact Or.inl hacc
        · exact Or.inr ⟨c', List.mem_cons_of_mem c hc', htc', hkc'⟩
    · simp only [List.foldl_cons, if_neg hc]
      rw [if_neg hc] at hle
      obtain ⟨ihlen, ihcount, ihcnt, ihfuel, ihpres⟩ :=
        ih acc hcnt (by omega)
      refine ⟨ihlen, by rw [takenCount_cons, if_neg hc]; omega, ihcnt,
        ihfuel, ?_⟩
      intro k hk
      rcases ihpres k hk with hpk | ⟨c', hc', htc', hkc'⟩
      · exact Or.inl hpk
      · exact Or.inr ⟨c', List.mem_cons_of_mem c hc', htc', hkc'⟩

theorem takenCount_set_untaken {cells : List (HashCell K V)} {r : Nat}
    (hrlt : r < cells.length) (hrfree : (cellAt cells r).taken = false)
    (key : K) (value : V) :
    takenCount (cells.set r { key := key, value := value, taken := true }) =
      takenCount cells + 1 := by
  have hset := takenCount_set cells r
    { key := key, value := value, taken := true } hrlt
  rw [hrfree] at hset
  simp only [Bool.false_eq_true, if_false, if_true] at hset
  omega

theorem takenCount_set_samefield {cells : List (HashCell K V)} {r : Nat}
    {c' : HashCell K V} (hrlt : r < cells.length)
    (hsame : c'.taken = (cellAt cells r).taken) :
    takenCount (cells.set r c') = takenCount cells := by
  have hset := takenCount_set cells r c' hrlt
  rw [hsame] at hset
  omega

theorem present_of_mem {t : HashTable K V} {c : HashCell K V}
    (hc : c ∈ t.cells) (ht : c.taken = true) : t.Present c.key := by
  rcases List.mem_iff_getElem.mp hc with ⟨j, hj, hcj⟩
  exact ⟨j, hj, by rw [cellAt_eq_getElem hj, hcj]; exact ht,
    by rw [cellAt_eq_getElem hj, hcj]⟩

theorem get_none_iff {t : HashTable K V} {key : K} :
    t.get key = none ↔ t.get_index key = none := by
  unfold HashTable.get
  cases t.get_index key <;> simp

theorem get_some_spec {t : HashTable K V} {key : K} {v : V}
    (h : t.get key = some v) :
    ∃ i, t.get_index key = some i ∧ (cellAt t.cells i).value = v := by
  unfold HashTable.get at h
  cases hidx : t.get_index key with
  | some i =>
    rw [hidx] at h
    exact ⟨i, rfl, Option.some.inj h⟩
  | none =>
    rw [hidx] at h
    exact Option.noConfusion h

/-- On a full table whose count is honest, a failed lookup really means the
key is nowhere: the loop visits every slot and they are all taken. -/
theorem not_present_of_full_none {t : HashTable K V} {key : K}
    (hf : t.cells.length ≤ t.taken_count) (hcnt : t.CountInv)
    (hnone : t.get_index key = none) : ¬ t.Present key := by
  rintro ⟨j, hj, htj, hkj⟩
  have hpos : 0 < t.cells.length := by omega
  have hall := all_taken_of_full
    (show t.cells.length ≤ takenCount t.cells by
      rw [HashTable.CountInv] at hcnt; omega)
  set s := HashAble.hash_key key % t.cells.length with hs_def
  have hs : s < t.cells.length := Nat.mod_lt _ hpos
  set d := probeDist t.cells.length s j with hd_def
  have hd : d < t.cells.length := probeDist_lt hpos s j
  have hpathkeys := get_index_none_path hnone hpos
    (d := d + 1) (by omega)
    (fun u _ => hall _ (Nat.mod_lt _ hpos))
  have hjd : (s + d) % t.cells.length = j := add_probeDist hs hj
  have := hpathkeys d (by omega)
  rw [hjd] at this
  exact this hkj

/-- Unfolded consequences of `extend` at positive fuel: the capacity becomes
`len * 2 + 1`, the count invariant holds, the count is bounded by the number
of taken cells of the old table, the fuel does not matter, and every key
present afterwards came from a taken cell of the old table. -/
theorem extendFuel_succ_spec (fuel : Nat) (t : HashTable K V) :
    (extendFuel (fuel + 1) t).cells.length = t.cells.length * 2 + 1 ∧
    (extendFuel (fuel + 1) t).taken_count ≤ takenCount t.cells ∧
    (extendFuel (fuel + 1) t).CountInv ∧
    extendFuel (fuel + 1) t = t.extend ∧
    (∀ k, (extendFuel (fuel + 1) t).Present k →
      ∃ c ∈ t.cells, c.taken = true ∧ c.key = k) := by
  have hinit_cnt :
      (HashTable.mk (K := K) (V := V)
        (List.replicate (t.cells.length * 2 + 1) default) 0).CountInv := by
    show 0 = takenCount (List.replicate (t.cells.length * 2 + 1) default)
    rw [takenCount_replicate]
  have hinit_len :
      (List.replicate (t.cells.length * 2 + 1)
        (default : HashCell K V)).length = t.cells.length * 2 + 1 := by
    simp
  have hle : (0 : Nat) + takenCount t.cells ≤
      (List.replicate (t.cells.length * 2 + 1)
        (default : HashCell K V)).length := by
    rw [hinit_len]
    have := takenCount_le t.cells
    omega
  obtain ⟨hlen, hcount, hcnt, hfuel, hpres⟩ :=
    reinsert_fold_spec fuel 0 t.cells
      (HashTable.mk (List.replicate (t.cells.length * 2 + 1) default) 0)
      hinit_cnt hle
  rw [extendFuel_succ]
  refine ⟨by rw [hlen, hinit_len], by simpa using hcount, hcnt, ?_, ?_⟩
  · show _ = extendFuel (0 + 1) t
    rw [extendFuel_succ]
    exact hfuel
  · intro k hk
    rcases hpres k hk with hini | hc
    · exfalso
      obtain ⟨j, hj, htj, -⟩ := hini
      rw [cellAt_replicate] at htj
      rw [default_cell_taken] at htj
      exact Bool.noConfusion htj
    · exact hc

/-- The source recursion terminates: any positive fuel computes the same
insert as fuel 1, i.e. the re-insertions of a growth pass never trigger a
nested growth. -/
theorem insertFuel_succ_eq_insert (fuel : Nat) (t : HashTable K V)
    (key : K) (value : V) :
    insertFuel (fuel + 1) t key value = t.insert key value := by
  show _ = insertFuel 1 t key value
  cases hidx : t.get_index key with
  | some i => rw [insertFuel_found _ hidx, insertFuel_found _ hidx]
  | none =>
    by_cases hf : t.cells.length ≤ t.taken_count
    · rw [insertFuel_notfound_full _ hidx hf, insertFuel_notfound_full _ hidx hf]
      have h1 := (extendFuel_succ_spec fuel t).2.2.2.1
      have h2 : extendFuel 1 t = t.extend := rfl
      rw [h1, h2]
    · rw [insertFuel_notfound_notfull _ hidx (by omega),
        insertFuel_notfound_notfull _ hidx (by omega)]

/-- Writing the new entry at the slot the free probe finds: on an honest
non-full table the slot is free and in bounds, and the written entry is
found by a subsequent lookup (the probe path to it carries no empty slot and
no match for the key). -/
theorem written_get {t1 : HashTable K V} {key : K}
    (hcnt : t1.CountInv) (hnf : t1.taken_count < t1.cells.length)
    (hnone : t1.get_index key = none) (value : V) :
    ∃ r, r = probe_free t1.cells t1.cells.length
        (HashAble.hash_key key % t1.cells.length) ∧
      r < t1.cells.length ∧ (cellAt t1.cells r).taken = false ∧
      HashTable.get
        (HashTable.mk (t1.cells.set r
          { key := key, value := value, taken := true })
          (t1.taken_count + 1)) key = some value := by
  have hpos : 0 < t1.cells.length := by omega
  have hs : HashAble.hash_key key % t1.cells.length < t1.cells.length :=
    Nat.mod_lt _ hpos
  have hfree : ∃ i, i < t1.cells.length ∧
      (cellAt t1.cells i).taken = false := by
    apply exists_untaken
    rw [HashTable.CountInv] at hcnt
    omega
  obtain ⟨hrfree, hrlt, hrpath⟩ := probe_free_finds hs hfree
  set s := HashAble.hash_key key % t1.cells.length with hs_def
  set r := probe_free t1.cells t1.cells.length s with hr_def
  set d := probeDist t1.cells.length s r with hd_def
  have hd : d < t1.cells.length := probeDist_lt hpos s r
  have hreach : (s + d) % t1.cells.length = r := add_probeDist hs hrlt
  have hpathkeys := get_index_none_path hnone hpos (d := d)
    (by omega) hrpath
  refine ⟨r, rfl, hrlt, hrfree, ?_⟩
  set t2 : HashTable K V := HashTable.mk
    (t1.cells.set r { key := key, value := value, taken := true })
    (t1.taken_count + 1) with ht2_def
  have hlen2 : t2.cells.length = t1.cells.length := by
    rw [ht2_def]
    exact List.length_set ..
  have hcell_r : cellAt t2.cells r =
      { key := key, value := value, taken := true } := by
    rw [ht2_def]
    show cellAt (t1.cells.set r _) r = _
    exact cellAt_set_self hrlt _
  have hidx2 : t2.get_index key = some r := by
    apply get_index_finds
    · rw [hlen2]
      exact hrlt
    · rw [hcell_r]
    · rw [hcell_r]
    · rw [hlen2]
      intro u hu
      rw [← hs_def] at hu ⊢
      rw [← hd_def] at hu
      have hur : (s + u) % t1.cells.length ≠ r := by
        intro hcon
        rw [← hreach] at hcon
        have := mod_shift_inj (by omega) hd hcon
        omega
      have hcell_p : cellAt t2.cells ((s + u) % t1.cells.length) =
          cellAt t1.cells ((s + u) % t1.cells.length) := by
        rw [ht2_def]
        exact cellAt_set_ne (fun hh => hur hh.symm) _
      rw [hcell_p]
      exact ⟨hrpath u hu, hpathkeys u hu⟩
  unfold HashTable.get
  rw [hidx2]
  show some (cellAt t2.cells r).value = some value
  rw [hcell_r]

/-- Every state-changing branch of `insert` preserves the count invariant. -/
theorem insert_countInv {t : HashTable K V} (hcnt : t.CountInv)
    (key : K) (value : V) : (t.insert key value).CountInv := by
  cases hidx : t.get_index key with
  | some i =>
    obtain ⟨hi, -, -, -⟩ := get_index_some_spec hidx
    show (insertFuel 1 t key value).CountInv
    rw [insertFuel_found 1 hidx]
    have hsame : ({ cellAt t.cells i with value := value } :
        HashCell K V).taken = (cellAt t.cells i).taken := rfl
    exact hcnt.trans (takenCount_set_samefield hi hsame).symm
  | none =>
    by_cases hf : t.cells.length ≤ t.taken_count
    · show (insertFuel 1 t key value).CountInv
      rw [insertFuel_notfound_full 1 hidx hf]
      obtain ⟨hElen, hEcount, hEcnt, -, -⟩ := extendFuel_succ_spec 0 t
      have hE01 : extendFuel (0 + 1) t = extendFuel 1 t := rfl
      rw [hE01] at hElen hEcount hEcnt
      have hEnf : (extendFuel 1 t).taken_count <
          (extendFuel 1 t).cells.length := by
        have h1 := takenCount_le t.cells
        omega
      have hpos : 0 < (extendFuel 1 t).cells.length := by omega
      have hs : HashAble.hash_key key % (extendFuel 1 t).cells.length <
          (extendFuel 1 t).cells.length := Nat.mod_lt _ hpos
      have hfree : ∃ i, i < (extendFuel 1 t).cells.length ∧
          (cellAt (extendFuel 1 t).cells i).taken = false := by
        apply exists_untaken
        rw [HashTable.CountInv] at hEcnt
        omega
      obtain ⟨hrfree, hrlt, -⟩ := probe_free_finds hs hfree
      show (extendFuel 1 t).taken_count + 1 = takenCount _
      rw [takenCount_set_untaken hrlt hrfree]
      rw [HashTable.CountInv] at hEcnt
      omega
    · exact (insert_notfull_spec hcnt (by omega) 1).1

/-- Overwriting the value at the slot a lookup found leaves the key
findable at the same slot, now holding the new value. -/
theorem overwrite_get_self {t : HashTable K V} {key : K} {i : Nat}
    (hidx : t.get_index key = some i) (value : V) :
    (HashTable.mk
      (t.cells.set i { cellAt t.cells i with value := value })
      t.taken_count).get key = some value := by
  obtain ⟨hi, hti, hki, -⟩ := get_index_some_spec hidx
  have hc' : cellAt
      (t.cells.set i { cellAt t.cells i with value := value }) i =
      { cellAt t.cells i with value := value } := cellAt_set_self hi _
  have hlen' : (t.cells.set i
      { cellAt t.cells i with value := value }).length = t.cells.length :=
    List.length_set ..
  have hsame : ∀ j, (cellAt (t.cells.set i
        { cellAt t.cells i with value := value }) j).taken =
        (cellAt t.cells j).taken ∧
      (cellAt (t.cells.set i
        { cellAt t.cells i with value := value }) j).key =
        (cellAt t.cells j).key := by
    intro j
    by_cases hji : i = j
    · subst hji
      rw [hc']
      exact ⟨rfl, rfl⟩
    · rw [cellAt_set_ne hji]
      exact ⟨rfl, rfl⟩
  have hidx' : (HashTable.mk
      (t.cells.set i { cellAt t.cells i with value := value })
      t.taken_count).get_index key = some i := by
    rw [get_index_congr hlen' hsame]
    exact hidx
  unfold HashTable.get
  rw [hidx']
  show some (cellAt
    (t.cells.set i { cellAt t.cells i with value := value }) i).value =
    some value
  rw [hc']

/-- After any insert on an honest table, the inserted key maps to the
inserted value (this holds with no further invariant: even on tables with
broken probe chains, the overwrite branch rewrites the found slot and the
write branch places the entry at the first free slot of its own chain). -/
theorem insert_get_self {t : HashTable K V} (hcnt : t.CountInv)
    (key : K) (value : V) : (t.insert key value).get key = some value := by
  cases hidx : t.get_index key with
  | some i =>
    have heq : t.insert key value = HashTable.mk
        (t.cells.set i { cellAt t.cells i with value := value })
        t.taken_count :=
      insertFuel_found 1 hidx value
    rw [heq]
    exact overwrite_get_self hidx value
  | none =>
    by_cases hf : t.cells.length ≤ t.taken_count
    · obtain ⟨hElen, hEcount, hEcnt, -, hEpres⟩ := extendFuel_succ_spec 0 t
      have hE01 : extendFuel (0 + 1) t = extendFuel 1 t := rfl
      rw [hE01] at hElen hEcount hEcnt
      have hEpres1 : ∀ k, (extendFuel 1 t).Present k →
          ∃ c ∈ t.cells, c.taken = true ∧ c.key = k := by
        rw [← hE01]
        exact hEpres
      have hEnf : (extendFuel 1 t).taken_count <
          (extendFuel 1 t).cells.length := by
        have h1 := takenCount_le t.cells
        omega
      have hEnone : (extendFuel 1 t).get_index key = none := by
        apply get_index_none_of_absent
        intro hpresE
        obtain ⟨c, hc, htc, hkc⟩ := hEpres1 key hpresE
        have hpres_t : t.Present key := by
          have := present_of_mem hc htc
          rw [hkc] at this
          exact this
        exact not_present_of_full_none hf hcnt hidx hpres_t
      obtain ⟨r, hr_def, hrlt, hrfree, hget⟩ :=
        written_get hEcnt hEnf hEnone value
      have heq : t.insert key value =
          HashTable.mk ((extendFuel 1 t).cells.set r
            { key := key, value := value, taken := true })
            ((extendFuel 1 t).taken_count + 1) := by
        show insertFuel 1 t key value = _
        rw [insertFuel_notfound_full 1 hidx hf, hr_def]
      rw [heq]
      exact hget
    · obtain ⟨r, hr_def, hrlt, hrfree, hget⟩ :=
        written_get hcnt (by omega) hidx value
      have heq : t.insert key value =
          HashTable.mk (t.cells.set r
            { key := key, value := value, taken := true })
            (t.taken_count + 1) := by
        show insertFuel 1 t key value = _
        rw [insertFuel_notfound_notfull 1 hidx (by omega), hr_def]
      rw [heq]
      exact hget

theorem remove_found {t : HashTable K V} {key : K} {i : Nat}
    (hidx : t.get_index key = some i) :
    t.remove key = (some (cellAt t.cells i).value,
      HashTable.mk (t.cells.set i default) (t.taken_count - 1)) := by
  unfold HashTable.remove
  rw [hidx]

theorem remove_notfound {t : HashTable K V} {key : K}
    (hidx : t.get_index key = none) : t.remove key = (none, t) := by
  unfold HashTable.remove
  rw [hidx]

theorem remove_countInv {t : HashTable K V} (hcnt : t.CountInv) (key : K) :
    (t.remove key).2.CountInv := by
  cases hidx : t.get_index key with
  | some i =>
    obtain ⟨hi, hti, -, -⟩ := get_index_some_spec hidx
    rw [remove_found hidx]
    show t.taken_count - 1 = takenCount (t.cells.set i default)
    have hset := takenCount_set t.cells i default hi
    rw [hti, default_cell_taken] at hset
    simp only [if_true, Bool.false_eq_true, if_false] at hset
    have hpos := takenCount_pos hi hti
    rw [HashTable.CountInv] at hcnt
    omega
  | none =>
    rw [remove_notfound hidx]
    exact hcnt

/-- After removing the key found at slot `i`, looking the key up again
reports absence: the lookup walks the same probe path and now stops at the
cleared slot.  This needs no invariant at all. -/
theorem remove_get_index_none {t : HashTable K V} {key : K} {i : Nat}
    (hidx : t.get_index key = some i) :
    (HashTable.mk (t.cells.set i default) (t.taken_count - 1)).get_index key
      = none := by
  obtain ⟨hi, hti, hki, hs, hpath⟩ := get_index_some_spec hidx
  have hpos : 0 < t.cells.length := by omega
  set s := HashAble.hash_key key % t.cells.length with hs_def
  set d := probeDist t.cells.length s i with hd_def
  have hd : d < t.cells.length := probeDist_lt hpos s i
  have hreach : (s + d) % t.cells.length = i := add_probeDist hs hi
  set cells' := t.cells.set i (default : HashCell K V) with hcellsdef
  have hlen' : cells'.length = t.cells.length := List.length_set ..
  have hcelli : cellAt cells' i = default := by
    rw [hcellsdef]
    exact cellAt_set_self hi _
  have hstep : ∀ u, u < d →
      (cellAt cells' ((s + u) % cells'.length)).taken = true ∧
      ¬(cellAt cells' ((s + u) % cells'.length)).key = key := by
    intro u hu
    rw [hlen']
    have hne : (s + u) % t.cells.length ≠ i := by
      intro hcon
      rw [← hreach] at hcon
      have := mod_shift_inj (by omega) hd hcon
      omega
    rw [hcellsdef, cellAt_set_ne (fun hh => hne hh.symm)]
    exact hpath u hu
  have hstop : (cellAt cells' ((s + d) % cells'.length)).taken = false := by
    rw [hlen', hreach, hcelli, default_cell_taken]
  have hloop := get_index_loop_stops d cells'.length s
    (by rw [hlen']; exact hs) (by rw [hlen']; exact hd) hstep
    (Or.inl hstop)
  have hsmod : HashAble.hash_key key % cells'.length = s := by
    rw [hlen']
  have hid : (s + d) % cells'.length = i := by
    rw [hlen']
    exact hreach
  unfold HashTable.get_index
  show (if (cellAt cells'
      (get_index_loop cells' key cells'.length
        (HashAble.hash_key key % cells'.length))).taken = true ∧
      (cellAt cells'
      (get_index_loop cells' key cells'.length
        (HashAble.hash_key key % cells'.length))).key = key then
      some (get_index_loop cells' key cells'.length
        (HashAble.hash_key key % cells'.length))
    else none) = none
  rw [hsmod, hloop, hid, hcelli]
  simp [default_cell_taken]

theorem reachable_countInv {t : HashTable K V} (h : Reachable t) :
    t.CountInv := by
  induction h with
  | new =>
    show 0 = takenCount (List.replicate INIT_CAPACITY default)
    rw [takenCount_replicate]
  | insert t key value _ ih => exact insert_countInv ih key value
  | remove t key _ ih => exact remove_countInv ih key
  | extend t _ _ =>
    have h1 := (extendFuel_succ_spec 0 t).2.2.1
    have hE01 : extendFuel (0 + 1) t = t.extend := rfl
    rw [hE01] at h1
    exact h1

/-! ### The full data-model invariant -/

section InvLemmas

open HashTable

variable {K V : Type} [DecidableEq K] [Inhabited K] [Inhabited V] [HashAble K]

/-- Under the invariant, every present key is found by `get_index` at its
slot: the probe chain to the slot is fully taken, and no earlier slot on the
chain can hold the key by slot-uniqueness. -/
theorem get_index_finds_of_inv {t : HashTable K V} (hinv : t.Inv) {key : K}
    {i : Nat} (hi : i < t.cells.length)
    (hti : (cellAt t.cells i).taken = true)
    (hki : (cellAt t.cells i).key = key) :
    t.get_index key = some i := by
  have hpos : 0 < t.cells.length := by omega
  set s := HashAble.hash_key key % t.cells.length with hs_def
  have hs : s < t.cells.length := Nat.mod_lt _ hpos
  set d := probeDist t.cells.length s i with hd_def
  have hd : d < t.cells.length := probeDist_lt hpos s i
  have hreach : (s + d) % t.cells.length = i := add_probeDist hs hi
  have hkey_start :
      HashAble.hash_key (cellAt t.cells i).key % t.cells.length = s := by
    rw [hki]
  apply get_index_finds hi hti hki
  intro u hu
  rw [← hs_def] at hu
  rw [← hd_def] at hu
  have htaken : (cellAt t.cells ((s + u) % t.cells.length)).taken = true := by
    have hc := hinv.2.2 i hi hti u (by rw [hkey_start, ← hd_def]; exact hu)
    rw [hkey_start] at hc
    exact hc
  refine ⟨htaken, ?_⟩
  intro hkeq
  have hp : (s + u) % t.cells.length < t.cells.length := Nat.mod_lt _ hpos
  have heqi := hinv.2.1 ((s + u) % t.cells.length) hp i hi htaken hti
    (by rw [hkeq, hki])
  rw [← hreach] at heqi
  have := mod_shift_inj (by omega) hd heqi
  omega

theorem not_present_of_none_inv {t : HashTable K V} (hinv : t.Inv)
    {key : K} (hnone : t.get_index key = none) : ¬ t.Present key := by
  rintro ⟨i, hi, hti, hki⟩
  rw [get_index_finds_of_inv hinv hi hti hki] at hnone
  exact Option.noConfusion hnone

theorem get_value_of_inv {t : HashTable K V} (hinv : t.Inv) {key : K}
    {i : Nat} (hi : i < t.cells.length)
    (hti : (cellAt t.cells i).taken = true)
    (hki : (cellAt t.cells i).key = key) :
    t.get key = some (cellAt t.cells i).value := by
  unfold HashTable.get
  rw [get_index_finds_of_inv hinv hi hti hki]

theorem get_none_of_absent {t : HashTable K V} {key : K}
    (h : ¬ t.Present key) : t.get key = none :=
  get_none_iff.mpr (get_index_none_of_absent h)

/-- The invariant only concerns the taken flags, the keys, and the count, so
it transfers along a value-only modification of the cells. -/
theorem inv_pointwise {t t' : HashTable K V}
    (hlen : t'.cells.length = t.cells.length)
    (hsame : ∀ j, (cellAt t'.cells j).taken = (cellAt t.cells j).taken ∧
      (cellAt t'.cells j).key = (cellAt t.cells j).key)
    (hcount : t'.taken_count = t.taken_count)
    (htc : takenCount t'.cells = takenCount t.cells)
    (hinv : t.Inv) : t'.Inv := by
  obtain ⟨hcnt, hnodup, hchain⟩ := hinv
  refine ⟨?_, ?_, ?_⟩
  · show t'.taken_count = takenCount t'.cells
    rw [hcount, htc]
    exact hcnt
  · intro i hi j hj hti htj hkij
    rw [hlen] at hi hj
    rw [(hsame i).1] at hti
    rw [(hsame j).1] at htj
    rw [(hsame i).2, (hsame j).2] at hkij
    exact hnodup i hi j hj hti htj hkij
  · intro i hi hti u hu
    rw [hlen] at hi
    rw [(hsame i).1] at hti
    rw [(hsame i).2, hlen] at hu
    rw [(hsame _).1, (hsame i).2, hlen]
    exact hchain i hi hti u hu

end InvLemmas

section InvSpecs

open HashTable

variable {K V : Type} [DecidableEq K] [Inhabited K] [Inhabited V] [HashAble K]

/-- The overwrite branch of insert under the invariant: the invariant is
preserved and the observable map gains exactly the new binding. -/
theorem overwrite_inv_spec {t : HashTable K V} (hinv : t.Inv) {key : K}
    {i : Nat} (hidx : t.get_index key = some i) (value : V) :
    (HashTable.mk
      (t.cells.set i { cellAt t.cells i with value := value })
      t.taken_count).Inv ∧
    (∀ k', (HashTable.mk
      (t.cells.set i { cellAt t.cells i with value := value })
      t.taken_count).get k' =
        if k' = key then some value else t.get k') := by
  obtain ⟨hi, hti, hki, -⟩ := get_index_some_spec hidx
  have hc' : cellAt
      (t.cells.set i { cellAt t.cells i with value := value }) i =
      { cellAt t.cells i with value := value } := cellAt_set_self hi _
  have hlen' : (t.cells.set i
      { cellAt t.cells i with value := value }).length = t.cells.length :=
    List.length_set ..
  have hsame : ∀ j, (cellAt (t.cells.set i
        { cellAt t.cells i with value := value }) j).taken =
        (cellAt t.cells j).taken ∧
      (cellAt (t.cells.set i
        { cellAt t.cells i with value := value }) j).key =
        (cellAt t.cells j).key := by
    intro j
    by_cases hji : i = j
    · subst hji
      rw [hc']
      exact ⟨rfl, rfl⟩
    · rw [cellAt_set_ne hji]
      exact ⟨rfl, rfl⟩
  have hsametk : ({ cellAt t.cells i with value := value } :
      HashCell K V).taken = (cellAt t.cells i).taken := rfl
  have htc : takenCount (t.cells.set i
      { cellAt t.cells i with value := value }) = takenCount t.cells :=
    takenCount_set_samefield hi hsametk
  have hinv' : (HashTable.mk
      (t.cells.set i { cellAt t.cells i with value := value })
      t.taken_count).Inv :=
    inv_pointwise hlen' hsame rfl htc hinv
  refine ⟨hinv', ?_⟩
  intro k'
  by_cases hk' : k' = key
  · subst hk'
    rw [if_pos rfl]
    exact overwrite_get_self hidx value
  · rw [if_neg hk']
    have hidx' : (HashTable.mk
        (t.cells.set i { cellAt t.cells i with value := value })
        t.taken_count).get_index k' = t.get_index k' :=
      get_index_congr hlen' hsame
    unfold HashTable.get
    rw [hidx']
    cases hj : t.get_index k' with
    | some j =>
      obtain ⟨hjl, htj, hkj, -⟩ := get_index_some_spec hj
      have hji : i ≠ j := by
        intro hcon
        subst hcon
        rw [hki] at hkj
        exact hk' hkj.symm
      show some (cellAt (t.cells.set i
        { cellAt t.cells i with value := value }) j).value = _
      rw [cellAt_set_ne hji]
    | none => rfl

/-- The write branch of insert under the invariant, on a non-full table:
the invariant is preserved and the observable map gains exactly the new
binding. -/
theorem core_write_inv_spec {t1 : HashTable K V} {key : K}
    (hinv : t1.Inv) (hnone : t1.get_index key = none)
    (hnf : t1.taken_count < t1.cells.length) (value : V) :
    ∃ r, r = probe_free t1.cells t1.cells.length
        (HashAble.hash_key key % t1.cells.length) ∧
      (HashTable.mk (t1.cells.set r
        { key := key, value := value, taken := true })
        (t1.taken_count + 1)).Inv ∧
      (∀ k', (HashTable.mk (t1.cells.set r
        { key := key, value := value, taken := true })
        (t1.taken_count + 1)).get k' =
          if k' = key then some value else t1.get k') := by
  have hpos : 0 < t1.cells.length := by omega
  have hs0 : HashAble.hash_key key % t1.cells.length < t1.cells.length :=
    Nat.mod_lt _ hpos
  have hfree : ∃ i, i < t1.cells.length ∧
      (cellAt t1.cells i).taken = false := by
    apply exists_untaken
    have hcnt := hinv.1
    rw [HashTable.CountInv] at hcnt
    omega
  obtain ⟨hrfree, hrlt, hrpath⟩ := probe_free_finds hs0 hfree
  set s := HashAble.hash_key key % t1.cells.length with hs_def
  set r := probe_free t1.cells t1.cells.length s with hr_def
  set d := probeDist t1.cells.length s r with hd_def
  have hd : d < t1.cells.length := probeDist_lt hpos s r
  have hreach : (s + d) % t1.cells.length = r := add_probeDist hs0 hrlt
  have hnopres := not_present_of_none_inv hinv hnone
  set cnew : HashCell K V := { key := key, value := value, taken := true }
    with hcnew_def
  set cells2 := t1.cells.set r cnew with hcells2_def
  have hlen2 : cells2.length = t1.cells.length := List.length_set ..
  have hcell_r : cellAt cells2 r = cnew := cellAt_set_self hrlt _
  have hcell_ne : ∀ j, j ≠ r → cellAt cells2 j = cellAt t1.cells j := by
    intro j hj
    exact cellAt_set_ne (fun hh => hj hh.symm) _
  have htc2 : takenCount cells2 = takenCount t1.cells + 1 :=
    takenCount_set_untaken hrlt hrfree key value
  have hinv2 : (HashTable.mk cells2 (t1.taken_count + 1)).Inv := by
    obtain ⟨hcnt, hnodup, hchain⟩ := hinv
    refine ⟨?_, ?_, ?_⟩
    · show t1.taken_count + 1 = takenCount cells2
      rw [htc2]
      rw [HashTable.CountInv] at hcnt
      omega
    · intro i hi j hj hti htj hkij
      show i = j
      rw [show (HashTable.mk cells2 (t1.taken_count + 1)).cells = cells2
        from rfl] at hi hj hti htj hkij
      rw [hlen2] at hi hj
      by_cases hir : i = r
      · by_cases hjr : j = r
        · rw [hir, hjr]
        · exfalso
          rw [hcell_ne j hjr] at htj hkij
          rw [hir, hcell_r] at hkij
          exact hnopres ⟨j, hj, htj, by rw [← hkij]⟩
      · by_cases hjr : j = r
        · exfalso
          rw [hcell_ne i hir] at hti hkij
          rw [hjr, hcell_r] at hkij
          exact hnopres ⟨i, hi, hti, hkij⟩
        · rw [hcell_ne i hir] at hti hkij
          rw [hcell_ne j hjr] at htj hkij
          exact hnodup i hi j hj hti htj hkij
    · intro i hi hti u hu
      rw [show (HashTable.mk cells2 (t1.taken_count + 1)).cells = cells2
        from rfl] at hi hti hu ⊢
      rw [hlen2] at hi hu ⊢
      by_cases hir : i = r
      · subst hir
        rw [hcell_r] at hu ⊢
        have hcs : HashAble.hash_key cnew.key % t1.cells.length = s := rfl
        rw [hcs] at hu ⊢
        rw [← hd_def] at hu
        have hne : (s + u) % t1.cells.length ≠ r := by
          intro hcon
          rw [← hreach] at hcon
          have := mod_shift_inj (by omega) hd hcon
          omega
        rw [hcell_ne _ hne]
        exact hrpath u hu
      · rw [hcell_ne i hir] at hti hu ⊢
        have htaken := hchain i hi hti u hu
        by_cases hpr : (HashAble.hash_key (cellAt t1.cells i).key %
            t1.cells.length + u) % t1.cells.length = r
        · rw [hpr, hcell_r]
        · rw [hcell_ne _ hpr]
          exact htaken
  refine ⟨r, rfl, hinv2, ?_⟩
  intro k'
  by_cases hk' : k' = key
  · subst hk'
    rw [if_pos rfl]
    obtain ⟨r', hrpdef, -, -, hget⟩ := written_get hinv.1 hnf hnone value
    rw [← hr_def] at hrpdef
    rw [hrpdef] at hget
    exact hget
  · rw [if_neg hk']
    by_cases hpres : t1.Present k'
    · obtain ⟨j, hj, htj, hkj⟩ := hpres
      have hjr : j ≠ r := by
        intro hcon
        rw [hcon, hrfree] at htj
        exact Bool.noConfusion htj
      have hcj : cellAt cells2 j = cellAt t1.cells j := hcell_ne j hjr
      have hfind2 : (HashTable.mk cells2 (t1.taken_count + 1)).get k' =
          some (cellAt cells2 j).value := by
        apply get_value_of_inv hinv2
        · rw [show (HashTable.mk cells2 (t1.taken_count + 1)).cells = cells2
            from rfl, hlen2]
          exact hj
        · rw [show (HashTable.mk cells2 (t1.taken_count + 1)).cells = cells2
            from rfl, hcj]
          exact htj
        · rw [show (HashTable.mk cells2 (t1.taken_count + 1)).cells = cells2
            from rfl, hcj]
          exact hkj
      have hfind1 : t1.get k' = some (cellAt t1.cells j).value :=
        get_value_of_inv hinv hj htj hkj
      rw [hfind2, hfind1, hcj]
    · have h1 : t1.get k' = none := get_none_of_absent hpres
      have h2 : ¬ (HashTable.mk cells2 (t1.taken_count + 1)).Present k' := by
        rintro ⟨j, hj, htj, hkj⟩
        rw [show (HashTable.mk cells2 (t1.taken_count + 1)).cells = cells2
          from rfl] at hj htj hkj
        rw [hlen2] at hj
        by_cases hjr : j = r
        · rw [hjr, hcell_r] at hkj
          exact hk' (by rw [← hkj])
        · rw [hcell_ne j hjr] at htj hkj
          exact hpres ⟨j, hj, htj, hkj⟩
      rw [h1, get_none_of_absent h2]

end InvSpecs

section ExtendInv

open HashTable

variable {K V : Type} [DecidableEq K] [Inhabited K] [Inhabited V] [HashAble K]

/-- The re-insertion pass of `extend` under the invariant: starting from an
invariant-satisfying table with enough room, re-inserting pairwise-distinct
fresh keys preserves the invariant, adds exactly the number of taken cells
to the count, keeps the capacity, and produces the observable map that
binds each re-inserted key to its cell's value on top of the accumulator. -/
theorem reinsert_fold_inv (fuel : Nat) :
    ∀ (cs : List (HashCell K V)) (acc : HashTable K V),
    acc.Inv →
    acc.taken_count + takenCount cs ≤ acc.cells.length →
    (∀ c ∈ cs, c.taken = true → ¬ acc.Present c.key) →
    cs.Pairwise (fun a b => a.taken = true → b.taken = true →
      a.key ≠ b.key) →
    (cs.foldl
        (fun acc cell =>
          if cell.taken = true then insertFuel fuel acc cell.key cell.value
          else acc) acc).Inv ∧
    (cs.foldl
        (fun acc cell =>
          if cell.taken = true then insertFuel fuel acc cell.key cell.value
          else acc) acc).taken_count = acc.taken_count + takenCount cs ∧
    (cs.foldl
        (fun acc cell =>
          if cell.taken = true then insertFuel fuel acc cell.key cell.value
          else acc) acc).cells.length = acc.cells.length ∧
    (∀ k, (cs.foldl
        (fun acc cell =>
          if cell.taken = true then insertFuel fuel acc cell.key cell.value
          else acc) acc).get k =
      match cs.find? (fun c => c.taken && decide (c.key = k)) with
      | some c => some c.value
      | none => acc.get k) := by
  intro cs
  induction cs with
  | nil =>
    intro acc hinv hle hfresh hpw
    refine ⟨hinv, by show acc.taken_count = acc.taken_count + 0; rfl, rfl,
      ?_⟩
    intro k
    rfl
  | cons c cs ih =>
    intro acc hinv hle hfresh hpw
    rw [takenCount_cons] at hle
    rw [List.pairwise_cons] at hpw
    by_cases hc : c.taken = true
    · rw [if_pos hc] at hle
      have hpres0 : ¬ acc.Present c.key :=
        hfresh c (List.mem_cons_self c cs) hc
      have hnone : acc.get_index c.key = none :=
        get_index_none_of_absent hpres0
      have hnf : acc.taken_count < acc.cells.length := by omega
      obtain ⟨r, hr_def, hinv2, hmodel2⟩ :=
        core_write_inv_spec hinv hnone hnf c.value
      have hstep := insertFuel_notfound_notfull fuel hnone hnf c.value
      rw [← hr_def] at hstep
      have hcount2 : (HashTable.mk (acc.cells.set r
          { key := c.key, value := c.value, taken := true })
          (acc.taken_count + 1)).taken_count = acc.taken_count + 1 := rfl
      have hlen2 : (HashTable.mk (acc.cells.set r
          { key := c.key, value := c.value, taken := true })
          (acc.taken_count + 1)).cells.length = acc.cells.length :=
        List.length_set ..
      have hfresh' : ∀ c' ∈ cs, c'.taken = true →
          ¬ (HashTable.mk (acc.cells.set r
            { key := c.key, value := c.value, taken := true })
            (acc.taken_count + 1)).Present c'.key := by
        intro c' hc' htc' hpres'
        obtain ⟨j, hj, htj, hkj⟩ := hpres'
        have hget' := get_value_of_inv hinv2 hj htj hkj
        rw [hmodel2 c'.key] at hget'
        have hkne : c'.key ≠ c.key := fun hh =>
          (hpw.1 c' hc' hc htc') hh.symm
        rw [if_neg hkne] at hget'
        have hgetnone : acc.get c'.key = none :=
          get_none_of_absent (hfresh c' (List.mem_cons_of_mem c hc') htc')
        rw [hgetnone] at hget'
        exact Option.noConfusion hget'
      obtain ⟨ihinv, ihcount, ihlen, ihmodel⟩ :=
        ih (HashTable.mk (acc.cells.set r
          { key := c.key, value := c.value, taken := true })
          (acc.taken_count + 1)) hinv2
          (by rw [hcount2, hlen2]; omega) hfresh' hpw.2
      simp only [List.foldl_cons, if_pos hc, hstep]
      refine ⟨ihinv, ?_, ?_, ?_⟩
      · rw [ihcount, hcount2, takenCount_cons, if_pos hc]
        omega
      · rw [ihlen, hlen2]
      intro k
      rw [ihmodel k]
      rw [List.find?_cons]
      by_cases hkc : c.key = k
      · have hpredc : (c.taken && decide (c.key = k)) = true := by
          rw [hc, hkc]
          simp
        rw [hpredc]
        have hnofind : cs.find? (fun c => c.taken && decide (c.key = k))
            = none := by
          rw [List.find?_eq_none]
          intro c' hc'
          intro hpred
          rw [Bool.and_eq_true] at hpred
          have hkeq : c'.key = k := of_decide_eq_true hpred.2
          exact (hpw.1 c' hc' hc hpred.1) (by rw [hkeq, hkc])
        rw [hnofind]
        rw [hmodel2 k, if_pos (by rw [hkc])]
      · have hpredc : (c.taken && decide (c.key = k)) = false := by
          rw [hc]
          simp [hkc]
        rw [hpredc]
        cases hfind : cs.find? (fun c => c.taken && decide (c.key = k)) with
        | some c' => rfl
        | none =>
          rw [hmodel2 k, if_neg (fun hh => hkc hh.symm)]
    · have hcf : (if c.taken = true then
          insertFuel fuel acc c.key c.value else acc) = acc := if_neg hc
      rw [if_neg hc] at hle
      obtain ⟨ihinv, ihcount, ihlen, ihmodel⟩ :=
        ih acc hinv (by omega)
          (fun c' hc' => hfresh c' (List.mem_cons_of_mem c hc')) hpw.2
      simp only [List.foldl_cons, hcf]
      refine ⟨ihinv, by rw [ihcount, takenCount_cons, if_neg hc]; omega,
        ihlen, ?_⟩
      intro k
      rw [ihmodel k, List.find?_cons]
      have hpredc : (c.taken && decide (c.key = k)) = false := by
        cases hb : c.taken
        · simp
        · exact absurd hb hc
      rw [hpredc]

/-- Under the invariant, the first cell holding a key determines `get`. -/
theorem find_model_of_inv {t : HashTable K V} (hinv : t.Inv) (k : K) :
    (match t.cells.find? (fun c => c.taken && decide (c.key = k)) with
      | some c => some c.value
      | none => (none : Option V)) = t.get k := by
  cases hfind : t.cells.find? (fun c => c.taken && decide (c.key = k)) with
  | some c =>
    have hpred := List.find?_some hfind
    rw [Bool.and_eq_true] at hpred
    have hkeq : c.key = k := of_decide_eq_true hpred.2
    have hmem := List.mem_of_find?_eq_some hfind
    rcases List.mem_iff_getElem.mp hmem with ⟨j, hj, hcj⟩
    have hcj' : cellAt t.cells j = c := by
      rw [cellAt_eq_getElem hj, hcj]
    have := get_value_of_inv hinv hj (by rw [hcj']; exact hpred.1)
      (by rw [hcj', hkeq])
    rw [this, hcj']
  | none =>
    have habs : ¬ t.Present k := by
      rintro ⟨j, hj, htj, hkj⟩
      have hmem := cellAt_mem hj
      have := List.find?_eq_none.mp hfind _ hmem
      rw [htj, hkj] at this
      simp at this
    rw [get_none_of_absent habs]

/-- `extend` under the invariant: same observable map, same occupied count,
capacity `len * 2 + 1`, invariant preserved. -/
theorem extend_inv_spec {t : HashTable K V} (hinv : t.Inv) :
    t.extend.Inv ∧ t.extend.taken_count = t.taken_count ∧
    t.extend.cells.length = t.cells.length * 2 + 1 ∧
    (∀ k, t.extend.get k = t.get k) := by
  have hinit_inv : (HashTable.mk (K := K) (V := V)
      (List.replicate (t.cells.length * 2 + 1) default) 0).Inv := by
    refine ⟨?_, ?_, ?_⟩
    · show (0 : Nat) = takenCount _
      rw [takenCount_replicate]
    · intro i hi j hj hti htj hkij
      exfalso
      rw [show (HashTable.mk (K := K) (V := V)
        (List.replicate (t.cells.length * 2 + 1) default) 0).cells =
        List.replicate (t.cells.length * 2 + 1) default from rfl,
        cellAt_replicate, default_cell_taken] at hti
      exact Bool.noConfusion hti
    · intro i hi hti u hu
      exfalso
      rw [show (HashTable.mk (K := K) (V := V)
        (List.replicate (t.cells.length * 2 + 1) default) 0).cells =
        List.replicate (t.cells.length * 2 + 1) default from rfl,
        cellAt_replicate, default_cell_taken] at hti
      exact Bool.noConfusion hti
  have hinit_absent : ∀ k, ¬ (HashTable.mk (K := K) (V := V)
      (List.replicate (t.cells.length * 2 + 1) default) 0).Present k := by
    rintro k ⟨j, hj, htj, -⟩
    rw [show (HashTable.mk (K := K) (V := V)
      (List.replicate (t.cells.length * 2 + 1) default) 0).cells =
      List.replicate (t.cells.length * 2 + 1) default from rfl,
      cellAt_replicate, default_cell_taken] at htj
    exact Bool.noConfusion htj
  have hpw : t.cells.Pairwise (fun a b => a.taken = true → b.taken = true →
      a.key ≠ b.key) := by
    rw [List.pairwise_iff_getElem]
    intro i j hi hj hij hti htj hkeq
    have hci : cellAt t.cells i = t.cells[i] := cellAt_eq_getElem hi
    have hcj : cellAt t.cells j = t.cells[j] := cellAt_eq_getElem hj
    have := hinv.2.1 i hi j hj (by rw [hci]; exact hti)
      (by rw [hcj]; exact htj) (by rw [hci, hcj, hkeq])
    omega
  have hle : (HashTable.mk (K := K) (V := V)
      (List.replicate (t.cells.length * 2 + 1) default) 0).taken_count +
      takenCount t.cells ≤ (HashTable.mk (K := K) (V := V)
      (List.replicate (t.cells.length * 2 + 1) default) 0).cells.length := by
    show 0 + takenCount t.cells ≤ (List.replicate _ _).length
    rw [List.length_replicate]
    have := takenCount_le t.cells
    omega
  obtain ⟨hfinv, hfcount, hflen, hfmodel⟩ :=
    reinsert_fold_inv 0 t.cells (HashTable.mk
      (List.replicate (t.cells.length * 2 + 1) default) 0) hinit_inv hle
      (fun c _ hc => hinit_absent c.key) hpw
  have hext : t.extend = t.cells.foldl
      (fun acc cell =>
        if cell.taken = true then insertFuel 0 acc cell.key cell.value
        else acc)
      (HashTable.mk (List.replicate (t.cells.length * 2 + 1) default) 0) := by
    show extendFuel (0 + 1) t = _
    rw [extendFuel_succ]
  rw [hext]
  refine ⟨hfinv, ?_, ?_, ?_⟩
  · rw [hfcount]
    show 0 + takenCount t.cells = t.taken_count
    have hcnt := hinv.1
    rw [HashTable.CountInv] at hcnt
    omega
  · rw [hflen]
    show (List.replicate (t.cells.length * 2 + 1)
      (default : HashCell K V)).length = t.cells.length * 2 + 1
    rw [List.length_replicate]
  · intro k
    rw [hfmodel k]
    have hinit_none : (HashTable.mk (K := K) (V := V)
        (List.replicate (t.cells.length * 2 + 1) default) 0).get k = none :=
      get_none_of_absent (hinit_absent k)
    rw [hinit_none]
    exact find_model_of_inv hinv k

end ExtendInv

section InsertInv

open HashTable

variable {K V : Type} [DecidableEq K] [Inhabited K] [Inhabited V] [HashAble K]

/-- `insert` under the invariant: the invariant is preserved, the observable
map gains exactly the new binding (all other keys keep their values), and
the occupied count grows by one exactly when the key was absent. -/
theorem insert_inv_spec {t : HashTable K V} (hinv : t.Inv)
    (key : K) (value : V) :
    (t.insert key value).Inv ∧
    (∀ k', (t.insert key value).get k' =
      if k' = key then some value else t.get k') ∧
    (t.get key = none →
      (t.insert key value).taken_count = t.taken_count + 1) ∧
    (¬ (t.get key = none) →
      (t.insert key value).taken_count = t.taken_count) := by
  cases hidx : t.get_index key with
  | some i =>
    have heq : t.insert key value = HashTable.mk
        (t.cells.set i { cellAt t.cells i with value := value })
        t.taken_count :=
      insertFuel_found 1 hidx value
    obtain ⟨hinv', hmodel⟩ := overwrite_inv_spec hinv hidx value
    rw [heq]
    have hgetsome : ¬ (t.get key = none) := by
      unfold HashTable.get
      rw [hidx]
      simp
    exact ⟨hinv', hmodel, fun hh => absurd hh hgetsome, fun _ => rfl⟩
  | none =>
    have hgetnone : t.get key = none := get_none_iff.mpr hidx
    by_cases hf : t.cells.length ≤ t.taken_count
    · obtain ⟨hEinv, hEcount, hElen, hEmodel⟩ := extend_inv_spec hinv
      have hEget_none : t.extend.get key = none := by
        rw [hEmodel key]
        exact hgetnone
      have hEidx : t.extend.get_index key = none :=
        get_none_iff.mp hEget_none
      have hEnf : t.extend.taken_count < t.extend.cells.length := by
        rw [hEcount, hElen]
        have hcnt := hinv.1
        rw [HashTable.CountInv] at hcnt
        have := takenCount_le t.cells
        omega
      obtain ⟨r, hr_def, hinv2, hmodel2⟩ :=
        core_write_inv_spec hEinv hEidx hEnf value
      have hstep := insertFuel_notfound_full 1 hidx hf value
      have hE1 : extendFuel 1 t = t.extend := rfl
      rw [hE1, ← hr_def] at hstep
      rw [show t.insert key value = insertFuel 1 t key value from rfl, hstep]
      refine ⟨hinv2, ?_, ?_, ?_⟩
      · intro k'
        rw [hmodel2 k']
        by_cases hk' : k' = key
        · rw [if_pos hk', if_pos hk']
        · rw [if_neg hk', if_neg hk', hEmodel k']
      · intro _
        show t.extend.taken_count + 1 = _
        rw [hEcount]
      · intro hne
        exact absurd hgetnone hne
    · obtain ⟨r, hr_def, hinv2, hmodel2⟩ :=
        core_write_inv_spec hinv hidx (by omega) value
      have hstep := insertFuel_notfound_notfull 1 hidx (by omega) value
      rw [← hr_def] at hstep
      rw [show t.insert key value = insertFuel 1 t key value from rfl, hstep]
      exact ⟨hinv2, hmodel2, fun _ => rfl, fun hne => absurd hgetnone hne⟩

theorem new_inv : (new : HashTable K V).Inv := by
  refine ⟨?_, ?_, ?_⟩
  · show (0 : Nat) = takenCount (List.replicate INIT_CAPACITY default)
    rw [takenCount_replicate]
  · intro i hi j hj hti htj hkij
    exfalso
    rw [show (new : HashTable K V).cells =
      List.replicate INIT_CAPACITY default from rfl,
      cellAt_replicate, default_cell_taken] at hti
    exact Bool.noConfusion hti
  · intro i hi hti u hu
    exfalso
    rw [show (new : HashTable K V).cells =
      List.replicate INIT_CAPACITY default from rfl,
      cellAt_replicate, default_cell_taken] at hti
    exact Bool.noConfusion hti

theorem new_get_none (key : K) : (new : HashTable K V).get key = none := by
  apply get_none_of_absent
  rintro ⟨j, hj, htj, -⟩
  rw [show (new : HashTable K V).cells =
    List.replicate INIT_CAPACITY default from rfl,
    cellAt_replicate, default_cell_taken] at htj
  exact Bool.noConfusion htj

end InsertInv

/-! ### Sequences of inserts from the fresh table -/

section RunInserts

open HashTable

variable {K V : Type} [DecidableEq K] [Inhabited K] [Inhabited V] [HashAble K]

theorem runInserts_append (ops : List (K × V)) (p : K × V) :
    runInserts (K := K) (V := V) (ops ++ [p]) =
      (runInserts ops).insert p.1 p.2 := by
  unfold runInserts
  rw [List.foldl_append]
  rfl

theorem lastVal_append (ops : List (K × V)) (p : K × V) (k : K) :
    lastVal (ops ++ [p]) k =
      if p.1 = k then some p.2 else lastVal ops k := by
  unfold lastVal
  rw [List.foldl_append]
  rfl

/-- Main induction: any sequence of inserts from the fresh table yields an
invariant-satisfying table whose observable map is exactly the
last-value-per-key map of the sequence. -/
theorem runInserts_spec (ops : List (K × V)) :
    (runInserts (K := K) (V := V) ops).Inv ∧
    (∀ k, (runInserts ops).get k = lastVal ops k) := by
  induction ops using List.reverseRecOn with
  | nil => exact ⟨new_inv, fun k => new_get_none k⟩
  | append_singleton ops p ih =>
    obtain ⟨ihinv, ihmodel⟩ := ih
    rw [runInserts_append]
    obtain ⟨hinv', hmodel', -, -⟩ := insert_inv_spec ihinv p.1 p.2
    refine ⟨hinv', ?_⟩
    intro k
    rw [hmodel' k, lastVal_append]
    by_cases hk : k = p.1
    · rw [if_pos hk, if_pos hk.symm]
    · rw [if_neg hk, if_neg (fun hh => hk hh.symm), ihmodel k]

theorem lastVal_none_of_not_mem {ops : List (K × V)} {k : K}
    (h : k ∉ ops.map Prod.fst) : lastVal ops k = none := by
  induction ops using List.reverseRecOn with
  | nil => rfl
  | append_singleton ops p ih =>
    rw [List.map_append] at h
    rw [lastVal_append]
    have hk : ¬(p.1 = k) := by
      intro hh
      exact h (List.mem_append.mpr (Or.inr (by simp [hh])))
    rw [if_neg hk]
    exact ih (fun hh => h (List.mem_append.mpr (Or.inl hh)))

theorem lastVal_of_mem_nodup {ops : List (K × V)} {p : K × V}
    (hnd : (ops.map Prod.fst).Nodup) (hp : p ∈ ops) :
    lastVal ops p.1 = some p.2 := by
  induction ops using List.reverseRecOn with
  | nil => exact absurd hp (List.not_mem_nil p)
  | append_singleton ops q ih =>
    rw [List.map_append] at hnd
    have hnd' := List.Nodup.of_append_left hnd
    rw [lastVal_append]
    rcases List.mem_append.mp hp with hmem | hlast
    · have hne : ¬(q.1 = p.1) := by
        intro hh
        have h1 : p.1 ∈ ops.map Prod.fst := List.mem_map_of_mem Prod.fst hmem
        have h2 := List.disjoint_of_nodup_append hnd
        exact h2 h1 (by simp [hh])
      rw [if_neg hne]
      exact ih hnd' hmem
    · have hq : q = p := by
        cases List.mem_singleton.mp hlast
        rfl
      subst hq
      rw [if_pos rfl]

/-- With pairwise-distinct keys, the count after running the inserts is the
number of inserts. -/
theorem runInserts_count_nodup (ops : List (K × V))
    (hnd : (ops.map Prod.fst).Nodup) :
    (runInserts (K := K) (V := V) ops).len_of_used = ops.length := by
  induction ops using List.reverseRecOn with
  | nil => rfl
  | append_singleton ops p ih =>
    rw [List.map_append] at hnd
    have hnd' := List.Nodup.of_append_left hnd
    have hnotmem : p.1 ∉ ops.map Prod.fst := by
      intro hh
      have h2 := List.disjoint_of_nodup_append hnd
      exact h2 hh (by simp)
    obtain ⟨ihinv, ihmodel⟩ := runInserts_spec ops
    rw [runInserts_append]
    obtain ⟨-, -, hcount, -⟩ := insert_inv_spec ihinv p.1 p.2
    have hgetnone : (runInserts (K := K) (V := V) ops).get p.1 = none := by
      rw [ihmodel p.1]
      exact lastVal_none_of_not_mem hnotmem
    show (HashTable.insert _ _ _).taken_count = _
    rw [hcount hgetnone]
    have hlen : (ops ++ [p]).length = ops.length + 1 := by simp
    rw [hlen, ← ih hnd']
    rfl

end RunInserts

/-! ### Claims -/

section Claims

open HashTable

variable {K V : Type} [DecidableEq K] [Inhabited K] [Inhabited V] [HashAble K]

/-- C1: Round-trip.  For every sequence of inserts on a table created by
`new()`, and for every key `k` inserted in that sequence, `get k` returns
`some v` where `v` is the last value inserted for `k` (the sequence contains
only inserts, so no remove intervenes). -/
theorem round_trip (ops : List (K × V)) (k : K) (v : V)
    (h : lastVal ops k = some v) :
    (runInserts (K := K) (V := V) ops).get k = some v := by
  rw [(runInserts_spec ops).2 k]
  exact h

/-- Witness for C1 at a concrete insert sequence. -/
theorem round_trip_witness :
    lastVal [((3 : Int), (7 : Int))] 3 = some 7 ∧
    (runInserts [((3 : Int), (7 : Int))]).get 3 = some 7 :=
  ⟨by decide, round_trip [((3 : Int), (7 : Int))] 3 7 (by decide)⟩

/-- Counterexample for C2 as frozen: on the table `dupKeyTable`, which is
reachable from `new()` by public operations but carries the key 11 in two
slots (a state the probe-chain deletion gap can produce), `extend()` loses
an entry: the occupied count drops from 2 to 1 and the value observable at
key 11 changes from 3 to 2.  Hence "for every table, extend() neither loses
nor duplicates any (key, value) entry" is false as stated. -/
theorem growth_loses_entry_counterexample :
    Reachable dupKeyTable ∧
    dupKeyTable.len_of_used = 2 ∧
    dupKeyTable.get 11 = some 3 ∧
    dupKeyTable.extend.len_of_used = 1 ∧
    dupKeyTable.extend.get 11 = some 2 := by
  refine ⟨?_, by decide, by decide, by decide, by decide⟩
  exact Reachable.insert _ 11 3 (Reachable.remove _ 0
    (Reachable.insert _ 11 2 (Reachable.insert _ 0 1 Reachable.new)))

/-- C2 (amended): on every table satisfying the data-model invariant of
spec §3 (honest count, no duplicated key, intact probe chains), `extend`
neither loses nor duplicates an entry — the observable map and the occupied
count are unchanged; in particular, inserting `N > 11` pairwise-distinct
keys into a fresh table yields `len_of_used = N` with every key retrievable
with its correct value after the growth events this forces. -/
theorem growth_correctness :
    (∀ t : HashTable K V, t.Inv →
      (∀ k, t.extend.get k = t.get k) ∧
      t.extend.len_of_used = t.len_of_used) ∧
    (∀ ops : List (K × V), (ops.map Prod.fst).Nodup → 11 < ops.length →
      (runInserts ops).len_of_used = ops.length ∧
      ∀ p ∈ ops, (runInserts ops).get p.1 = some p.2) := by
  constructor
  · intro t hinv
    obtain ⟨-, hcount, -, hmodel⟩ := extend_inv_spec hinv
    exact ⟨hmodel, hcount⟩
  · intro ops hnd hlen
    refine ⟨runInserts_count_nodup ops hnd, ?_⟩
    intro p hp
    rw [(runInserts_spec ops).2 p.1]
    exact lastVal_of_mem_nodup hnd hp

/-- Witness for C2 (amended): twelve distinct keys force one growth; the
count is 12 and all keys remain retrievable. -/
theorem growth_correctness_witness :
    (opsTwelve.map Prod.fst).Nodup ∧ 11 < opsTwelve.length ∧
    (runInserts opsTwelve).len_of_used = opsTwelve.length ∧
    (∀ p ∈ opsTwelve, (runInserts opsTwelve).get p.1 = some p.2) :=
  ⟨by decide, by decide,
    (growth_correctness.2 opsTwelve (by decide) (by decide)).1,
    (growth_correctness.2 opsTwelve (by decide) (by decide)).2⟩

/-- C3: Deletion probe-chain gap.  Keys 0 and 11 both hash to start slot 0
of the fresh 11-slot table; key 0 lands at slot 0 and key 11 at slot 1,
later on the same probe chain.  After removing key 0, a lookup of key 11 —
which was never removed — returns absence, because remove cleared slot 0
immediately and `get_index` treats the first empty slot as a hard
probe-chain terminator. -/
theorem remove_probe_chain_gap :
    hash_i32 0 % 11 = 0 ∧ hash_i32 11 % 11 = 0 ∧
    (((HashTable.new : HashTable Int Int).insert 0 100).insert
      11 200).get_index 0 = some 0 ∧
    (((HashTable.new : HashTable Int Int).insert 0 100).insert
      11 200).get_index 11 = some 1 ∧
    (((HashTable.new : HashTable Int Int).insert 0 100).insert
      11 200).get 11 = some 200 ∧
    ((((HashTable.new : HashTable Int Int).insert 0 100).insert
      11 200).remove 0).1 = some 100 ∧
    (((((HashTable.new : HashTable Int Int).insert 0 100).insert
      11 200).remove 0).2).get 11 = none := by
  decide

/-- C4: Removal postcondition.  On every table with an honest occupied
count, removing a key that `get` currently maps to `v` returns `some v`,
replaces the found slot by the default cell (occupied flag, key and value
cleared), decrements `len_of_used` by exactly one (no underflow), and a
subsequent `get` of the key returns absence. -/
theorem remove_postcondition {t : HashTable K V} {k : K} {v : V}
    (hcnt : t.CountInv) (hget : t.get k = some v) :
    ∃ i, t.get_index k = some i ∧ i < t.cells.length ∧
      (t.remove k).1 = some v ∧
      (t.remove k).2.cells = t.cells.set i default ∧
      cellAt (t.remove k).2.cells i = default ∧
      (t.remove k).2.len_of_used + 1 = t.len_of_used ∧
      (t.remove k).2.get k = none := by
  obtain ⟨i, hidx, hval⟩ := get_some_spec hget
  obtain ⟨hi, hti, -, -⟩ := get_index_some_spec hidx
  have hrm := remove_found hidx
  refine ⟨i, hidx, hi, ?_, ?_, ?_, ?_, ?_⟩
  · rw [hrm]
    show some (cellAt t.cells i).value = some v
    rw [hval]
  · rw [hrm]
  · rw [hrm]
    show cellAt (t.cells.set i default) i = default
    exact cellAt_set_self hi _
  · rw [hrm]
    show (t.taken_count - 1) + 1 = t.taken_count
    have hpos := takenCount_pos hi hti
    rw [HashTable.CountInv] at hcnt
    omega
  · rw [hrm]
    exact get_none_iff.mpr (remove_get_index_none hidx)

/-- Witness for C4 at a concrete one-entry table. -/
theorem remove_postcondition_witness :
    (runInserts [((5 : Int), (50 : Int))]).CountInv ∧
    (runInserts [((5 : Int), (50 : Int))]).get 5 = some 50 ∧
    ∃ i, (runInserts [((5 : Int), (50 : Int))]).get_index 5 = some i ∧
      i < (runInserts [((5 : Int), (50 : Int))]).cells.length ∧
      ((runInserts [((5 : Int), (50 : Int))]).remove 5).1 = some 50 ∧
      ((runInserts [((5 : Int), (50 : Int))]).remove 5).2.cells =
        (runInserts [((5 : Int), (50 : Int))]).cells.set i default ∧
      cellAt ((runInserts [((5 : Int), (50 : Int))]).remove 5).2.cells i =
        default ∧
      ((runInserts [((5 : Int), (50 : Int))]).remove 5).2.len_of_used + 1 =
        (runInserts [((5 : Int), (50 : Int))]).len_of_used ∧
      ((runInserts [((5 : Int), (50 : Int))]).remove 5).2.get 5 = none :=
  ⟨by decide, by decide, remove_postcondition (by decide) (by decide)⟩

/-- C5: Insert always succeeds.  On every table reachable from `new()` by
the public operations: the `insert`/`extend` recursion terminates (any
positive fuel computes the same result), the inserted pair is stored and
retrievable, and in the writing branch the linear probe finds a genuinely
unoccupied in-bounds slot — `extend` having been invoked first exactly when
`taken_count ≥ capacity` guarantees an empty slot exists before probing
begins. -/
theorem insert_always_succeeds {t : HashTable K V} (hreach : Reachable t)
    (k : K) (v : V) :
    (∀ fuel, insertFuel (fuel + 1) t k v = t.insert k v) ∧
    (t.insert k v).get k = some v ∧
    (t.get_index k = none →
      ∃ t1 i, t1 = (if t.cells.length ≤ t.taken_count then t.extend
          else t) ∧
        i < t1.cells.length ∧ (cellAt t1.cells i).taken = false ∧
        t.insert k v = HashTable.mk
          (t1.cells.set i { key := k, value := v, taken := true })
          (t1.taken_count + 1)) := by
  have hcnt := reachable_countInv hreach
  refine ⟨fun fuel => insertFuel_succ_eq_insert fuel t k v,
    insert_get_self hcnt k v, ?_⟩
  intro hnone
  by_cases hf : t.cells.length ≤ t.taken_count
  · obtain ⟨hElen, hEcount, hEcnt, hEeq, -⟩ := extendFuel_succ_spec 0 t
    have hE01 : extendFuel (0 + 1) t = extendFuel 1 t := rfl
    rw [hE01] at hElen hEcount hEcnt
    have hE1 : extendFuel 1 t = t.extend := rfl
    have hEnf : (extendFuel 1 t).taken_count <
        (extendFuel 1 t).cells.length := by
      have h1 := takenCount_le t.cells
      omega
    have hpos : 0 < (extendFuel 1 t).cells.length := by omega
    have hs : HashAble.hash_key k % (extendFuel 1 t).cells.length <
        (extendFuel 1 t).cells.length := Nat.mod_lt _ hpos
    have hfree : ∃ i, i < (extendFuel 1 t).cells.length ∧
        (cellAt (extendFuel 1 t).cells i).taken = false := by
      apply exists_untaken
      rw [HashTable.CountInv] at hEcnt
      omega
    obtain ⟨hrfree, hrlt, -⟩ := probe_free_finds hs hfree
    refine ⟨extendFuel 1 t,
      probe_free (extendFuel 1 t).cells (extendFuel 1 t).cells.length
        (HashAble.hash_key k % (extendFuel 1 t).cells.length),
      by rw [if_pos hf, hE1], hrlt, hrfree, ?_⟩
    show insertFuel 1 t k v = _
    rw [insertFuel_notfound_full 1 hnone hf v]
  · have hnf : t.taken_count < t.cells.length := by omega
    have hpos : 0 < t.cells.length := by omega
    have hs : HashAble.hash_key k % t.cells.length < t.cells.length :=
      Nat.mod_lt _ hpos
    have hfree : ∃ i, i < t.cells.length ∧
        (cellAt t.cells i).taken = false := by
      apply exists_untaken
      rw [HashTable.CountInv] at hcnt
      omega
    obtain ⟨hrfree, hrlt, -⟩ := probe_free_finds hs hfree
    refine ⟨t,
      probe_free t.cells t.cells.length
        (HashAble.hash_key k % t.cells.length),
      by rw [if_neg hf], hrlt, hrfree, ?_⟩
    show insertFuel 1 t k v = _
    rw [insertFuel_notfound_notfull 1 hnone hnf v]

/-- Witness for C5 at the fresh table. -/
theorem insert_always_succeeds_witness :
    ((HashTable.new : HashTable Int Int).insert 0 5).get 0 = some 5 :=
  (insert_always_succeeds Reachable.new 0 5).2.1

/-- C6: Absence and atomicity on miss.  On every table and for every key
held by no occupied slot, `get` reports absence and `remove` returns
absence together with the table itself, unchanged (cells and occupied count
identical; `get` is a pure read by construction).  The result covers in
particular the case where the lookup probes the full capacity without
meeting an empty slot or a match. -/
theorem absent_get_remove {t : HashTable K V} {k : K}
    (habs : ¬ t.Present k) :
    t.get k = none ∧ t.remove k = (none, t) ∧
    (t.remove k).2.cells = t.cells ∧
    (t.remove k).2.taken_count = t.taken_count := by
  have hidx := get_index_none_of_absent habs
  have hrm := remove_notfound hidx
  exact ⟨get_none_iff.mpr hidx, hrm, by rw [hrm], by rw [hrm]⟩

/-- Witness for C6 on a completely full table, where the lookup probes all
11 slots before giving up. -/
theorem absent_get_remove_witness :
    ¬ (runInserts opsEleven).Present 100 ∧
    (runInserts opsEleven).len_of_used = (runInserts opsEleven).len ∧
    (runInserts opsEleven).get 100 = none ∧
    (runInserts opsEleven).remove 100 = (none, runInserts opsEleven) :=
  ⟨by decide, by decide, (absent_get_remove (by decide)).1,
    (absent_get_remove (by decide)).2.1⟩

/-- C7: Overwrite frame.  Whenever the key is already present (found at
slot `i`), insert only replaces the value stored at slot `i`: the occupied
count and the capacity are unchanged — no growth is triggered even on a
full table, because the existing-key check precedes the fullness check —
the slot keeps its key and occupied flag, and every other slot is
untouched. -/
theorem overwrite_frame {t : HashTable K V} {k : K} {i : Nat}
    (hidx : t.get_index k = some i) (v : V) :
    t.insert k v = HashTable.mk
      (t.cells.set i { cellAt t.cells i with value := v })
      t.taken_count ∧
    (t.insert k v).taken_count = t.taken_count ∧
    (t.insert k v).cells.length = t.cells.length ∧
    (cellAt (t.insert k v).cells i).key = (cellAt t.cells i).key ∧
    (cellAt (t.insert k v).cells i).taken = (cellAt t.cells i).taken ∧
    (cellAt (t.insert k v).cells i).value = v ∧
    (∀ j, j ≠ i → cellAt (t.insert k v).cells j = cellAt t.cells j) := by
  obtain ⟨hi, -, -, -⟩ := get_index_some_spec hidx
  have heq : t.insert k v = HashTable.mk
      (t.cells.set i { cellAt t.cells i with value := v })
      t.taken_count := insertFuel_found 1 hidx v
  have hself : cellAt (t.insert k v).cells i =
      { cellAt t.cells i with value := v } := by
    rw [heq]
    exact cellAt_set_self hi _
  refine ⟨heq, by rw [heq], by rw [heq]; exact List.length_set ..,
    by rw [hself], by rw [hself], by rw [hself], ?_⟩
  intro j hj
  rw [heq]
  show cellAt (t.cells.set i _) j = cellAt t.cells j
  exact cellAt_set_ne (fun hh => hj hh.symm) _

/-- Witness for C7 on a concrete one-entry table. -/
theorem overwrite_frame_witness :
    ((runInserts [((0 : Int), (1 : Int))]).insert 0 2).taken_count =
      (runInserts [((0 : Int), (1 : Int))]).taken_count ∧
    ((runInserts [((0 : Int), (1 : Int))]).insert 0 2).cells.length =
      (runInserts [((0 : Int), (1 : Int))]).cells.length :=
  ⟨(overwrite_frame (i := 0) (by decide) 2).2.1,
    (overwrite_frame (i := 0) (by decide) 2).2.2.1⟩

/-- C8: Hashing contract for the built-in key types.  Integer keys hash to
their own value cast to unsigned (two's complement into the 64-bit usize);
single-character keys hash to `((5381 <<< 5) + 5381) + code_point`; byte
sequences hash by the DJB2 recurrence seeded at 5381, each step reduced
modulo `2 ^ 64` exactly as the wrapping usize arithmetic of the source; and
`hash("a") = hash('a') = 5381 * 33 + 97 = 177670`. -/
theorem hashing_contract :
    (∀ i : Int, 0 ≤ i → i < 2 ^ 31 → hash_i32 i = i.toNat) ∧
    (∀ i : Int, -(2 ^ 31) ≤ i → i < 0 → hash_i32 i = (i + 2 ^ 64).toNat) ∧
    hash_i32 (-1) = 2 ^ 64 - 1 ∧
    (∀ c : Char, hash_char c = ((5381 <<< 5) + 5381) + c.toNat) ∧
    hashBytes [] = 5381 ∧
    (∀ bs b, hashBytes (bs ++ [b]) =
      (((hashBytes bs) <<< 5) + hashBytes bs + b) % 2 ^ 64) ∧
    (∀ bs b, hashBytes (bs ++ [b]) = (hashBytes bs * 33 + b) % 2 ^ 64) ∧
    hash_char 'a' = 177670 ∧
    hashBytes [97] = 177670 ∧
    177670 = 5381 * 33 + 97 := by
  have hstep : ∀ bs b, hashBytes (bs ++ [b]) =
      (((hashBytes bs) <<< 5) + hashBytes bs + b) % 2 ^ 64 := by
    intro bs b
    unfold hashBytes
    rw [List.foldl_append]
    rfl
  refine ⟨?_, ?_, by decide, fun c => rfl, rfl, hstep, ?_, by decide,
    by decide, by decide⟩
  · intro i h0 h31
    unfold hash_i32 usizeMod
    have ha : ((2 : Int)) ^ 31 = 2147483648 := by norm_num
    have hb : (((2 ^ 64 : Nat)) : Int) = 18446744073709551616 := by
      norm_num
    rw [ha] at h31
    rw [hb]
    have hmod : i % 18446744073709551616 = i :=
      Int.emod_eq_of_lt h0 (by omega)
    rw [hmod]
  · intro i hlo hhi
    unfold hash_i32 usizeMod
    have ha : ((2 : Int)) ^ 31 = 2147483648 := by norm_num
    have hb : (((2 ^ 64 : Nat)) : Int) = 18446744073709551616 := by
      norm_num
    have hc : ((2 : Int)) ^ 64 = 18446744073709551616 := by norm_num
    rw [← Int.neg_neg (2 ^ 31), ha] at hlo
    rw [hb, hc]
    have hmod : i % 18446744073709551616 = i + 18446744073709551616 := by
      omega
    rw [hmod]
  · intro bs b
    rw [hstep bs b]
    have h32 : hashBytes bs <<< 5 = hashBytes bs * 32 := by
      rw [Nat.shiftLeft_eq]
    rw [h32]
    have heq : hashBytes bs * 32 + hashBytes bs + b =
        hashBytes bs * 33 + b := by omega
    rw [heq]

/-- Witness for C8 at concrete integers and byte strings. -/
theorem hashing_contract_witness :
    hash_i32 42 = (42 : Int).toNat ∧
    hash_i32 (-2) = ((-2 : Int) + 2 ^ 64).toNat :=
  ⟨hashing_contract.1 42 (by decide) (by decide),
    hashing_contract.2.1 (-2) (by decide) (by decide)⟩

/-- C9: Count invariant.  `new` establishes, and `insert`, `remove` and the
internal `extend` preserve, the invariant that `taken_count` equals the
number of cells whose taken flag is set (`get` and `get_mut` are pure reads
in this embedding and change nothing); consequently
`len_of_used ≤ len` always holds, and the decrement in `remove` never
underflows because a found key occupies a cell, forcing a positive count. -/
theorem count_invariant :
    (HashTable.new : HashTable K V).CountInv ∧
    (∀ (t : HashTable K V) k v, t.CountInv → (t.insert k v).CountInv) ∧
    (∀ (t : HashTable K V) k, t.CountInv → (t.remove k).2.CountInv) ∧
    (∀ t : HashTable K V, t.extend.CountInv) ∧
    (∀ t : HashTable K V, t.CountInv → t.len_of_used ≤ t.len) ∧
    (∀ (t : HashTable K V) k, t.CountInv → t.Present k →
      1 ≤ t.len_of_used) := by
  refine ⟨?_, ?_, ?_, ?_, ?_, ?_⟩
  · show (0 : Nat) = takenCount (List.replicate INIT_CAPACITY default)
    rw [takenCount_replicate]
  · intro t k v hcnt
    exact insert_countInv hcnt k v
  · intro t k hcnt
    exact remove_countInv hcnt k
  · intro t
    have h1 := (extendFuel_succ_spec 0 t).2.2.1
    have hE01 : extendFuel (0 + 1) t = t.extend := rfl
    rw [hE01] at h1
    exact h1
  · intro t hcnt
    show t.taken_count ≤ t.cells.length
    rw [HashTable.CountInv] at hcnt
    have := takenCount_le t.cells
    omega
  · rintro t k hcnt ⟨i, hi, hti, -⟩
    show 1 ≤ t.taken_count
    have := takenCount_pos hi hti
    rw [HashTable.CountInv] at hcnt
    omega

/-- Witness for C9 at concrete tables. -/
theorem count_invariant_witness :
    ((HashTable.new : HashTable Int Int).insert 0 5).CountInv ∧
    (HashTable.new : HashTable Int Int).len_of_used ≤
      (HashTable.new : HashTable Int Int).len :=
  ⟨count_invariant.2.1 HashTable.new 0 5 count_invariant.1,
    count_invariant.2.2.2.2.1 HashTable.new count_invariant.1⟩

/-- C10: Capacity sequence.  `new()` creates exactly 11 slots, all the
default empty cell, with occupied count 0; every growth replaces the slot
vector by one of length `old * 2 + 1`; hence one growth of the fresh table
gives capacity 23 and a second gives 47. -/
theorem capacity_sequence :
    (HashTable.new : HashTable K V).len = 11 ∧
    (HashTable.new : HashTable K V).cells =
      List.replicate 11 (default : HashCell K V) ∧
    (HashTable.new : HashTable K V).len_of_used = 0 ∧
    (∀ t : HashTable K V, t.extend.len = t.len * 2 + 1) ∧
    (HashTable.new : HashTable K V).extend.len = 23 ∧
    (HashTable.new : HashTable K V).extend.extend.len = 47 := by
  have hext : ∀ t : HashTable K V, t.extend.len = t.len * 2 + 1 := by
    intro t
    have h1 := (extendFuel_succ_spec 0 t).1
    have hE01 : extendFuel (0 + 1) t = t.extend := rfl
    rw [hE01] at h1
    exact h1
  refine ⟨rfl, rfl, rfl, hext, ?_, ?_⟩
  · rw [hext]
    rfl
  · rw [hext, hext]
    rfl

end Claims
